import Mathlib

/-!
Verification of the editing core of `hop-editor` (tab module).

Strings are modelled as `List Char`; a Rust `String` is UTF-8, and every
byte offset handled by the code under scrutiny is produced by
`Line::len_until`, i.e. is a character boundary, so byte-offset
splice operations are reflected as character-position splices while
byte *lengths* (which the code also feeds into character coordinates,
see `Tab.add_to_cursors` callers) are computed faithfully via `utf8Len`.

Fields and helpers of the Rust code that only affect rendering state
(per-line `dirty` flags, highlight `ranges`, `eol_ctx`, `set_lines_dirty`,
`set_fully_dirty`, `check_line_highlighting`, `Line::set_dirty`) are omitted:
no claim observes them and they never influence buffers, cursors or history.
Likewise the fields `file_path`, `name`, `tmp_buf` (a scratch buffer for
`rebuild`, modelled by the pure `rebuildText`), `syntax`, `tab_lang`,
`v_scroll` and `tab_width_m1` are omitted; they are not read by the
operations the claims are about.
-/

namespace Hop

/-- Number of bytes of the UTF-8 encoding of a character
(Rust `char::len_utf8`). -/
def utf8Len (c : Char) : Nat :=
  if c.toNat < 0x80 then 1
  else if c.toNat < 0x800 then 2
  else if c.toNat < 0x10000 then 3
  else 4

/-- Byte length of a string (Rust `str::len`). -/
def byteLen (s : List Char) : Nat :=
  (s.map utf8Len).sum

/-- Apply `f` to the element at index `i` (Rust in-place mutation of
`vec[i]`; out-of-range indices leave the list unchanged, which is
unreachable in the verified uses). -/
def updateAt (l : List α) (i : Nat) (f : α → α) : List α :=
  match l, i with
  | [], _ => []
  | a :: rest, 0 => f a :: rest
  | a :: rest, i + 1 => a :: updateAt rest i f

/-- Rust `Vec::insert(i, a)`. -/
def insertAt (l : List α) (i : Nat) (a : α) : List α :=
  l.take i ++ a :: l.drop i

/-- Tail loop of `dedupAdj`: drop elements equal to the last kept one. -/
def dedupAdjAux [DecidableEq α] (prev : α) : List α → List α
  | [] => []
  | b :: rest => if prev = b then dedupAdjAux prev rest else b :: dedupAdjAux b rest

/-- Rust `Vec::dedup`: remove consecutive equal elements, keeping the
first of each run. -/
def dedupAdj [DecidableEq α] : List α → List α
  | [] => []
  | a :: rest => a :: dedupAdjAux a rest

/-- `strip_cr` from `src/tab/insertion.rs`: detach a trailing `'\r'`. -/
def strip_cr (text : List Char) : List Char × Bool :=
  match text.getLast? with
  | some '\r' => (text.dropLast, true)
  | _ => (text, false)

/-- Rust `str::split('\n')` (always returns at least one part). -/
def splitLf : List Char → List (List Char)
  | [] => [[]]
  | c :: rest =>
    if c = '\n' then [] :: splitLf rest
    else
      match splitLf rest with
      | [] => [[c]]
      | p :: ps => (c :: p) :: ps

/-- One line record (`Line` in `src/tab/mod.rs`), reduced to the fields
the claims observe: the text buffer and the carriage-return flag. -/
structure Line where
  buffer : List Char
  eol_cr : Bool
deriving DecidableEq, Repr

/-- Rust `Line::default()`. -/
def Line.empty : Line := ⟨[], false⟩

instance : Inhabited Line := ⟨Line.empty⟩

/-- `Line::len_chars`. -/
def Line.len_chars (l : Line) : Nat := l.buffer.length

/-- `Line::len_until`: byte length of the first `x` characters. -/
def Line.len_until (l : Line) (x : Nat) : Nat := byteLen (l.buffer.take x)

/-- `Cursor` from the current `src/tab` code: position `(x, y)` in
character/line units, the signed selection delta pair, and the touch
identifier `id` used by `latest_cursor` (seen in `src/tab/movement.rs`). -/
structure Cursor where
  x : Nat
  y : Nat
  sel_x : Int
  sel_y : Int
  id : Nat
deriving DecidableEq, Repr

instance : Inhabited Cursor := ⟨⟨0, 0, 0, 0, 0⟩⟩

/-- `Cursor::new(id)` as used throughout `src/tab/movement.rs`:
origin position, no selection, the given id. -/
def Cursor.new (id : Nat) : Cursor := ⟨0, 0, 0, 0, id⟩

/-- Modelled from the spec: `Cursor::selects` (the method is called by
`src/tab/movement.rs` but its body is not under `src/`); per §3 a
`(0,0)` delta pair means no selection, anything else is a selection. -/
def Cursor.selects (c : Cursor) : Bool :=
  c.sel_x ≠ 0 || c.sel_y ≠ 0

/-- `Cursor::covers` from `src/tab/mod.rs`. -/
def Cursor.covers (c : Cursor) (y : Nat) : Bool :=
  if y < c.y then c.sel_y < -(((c.y - y : Nat)) : Int)
  else if c.y < y then ((y - c.y : Nat) : Int) < c.sel_y
  else false

/-- `Cursor::touches` from `src/tab/mod.rs`. -/
def Cursor.touches (c : Cursor) (y : Nat) : Bool :=
  c.sel_y ≠ 0 && (y : Int) - (c.y : Int) = c.sel_y

/-- `checked_add_signed(..).unwrap_or(a)` as in `Cursor::sel_jump`. -/
def addSignedOr (a : Nat) (b : Int) : Nat :=
  if 0 ≤ (a : Int) + b then ((a : Int) + b).toNat else a

/-- `Cursor::sel_jump` from `src/tab/mod.rs`: move the cursor to the
requested end of its selection, negating the deltas. -/
def Cursor.sel_jump (c : Cursor) (to_start : Bool) : Cursor :=
  let cursor_at_sel_end : Bool :=
    if c.sel_y = 0 then c.sel_x < 0 else c.sel_y < 0
  if (to_start = cursor_at_sel_end) then
    { c with
      x := addSignedOr c.x c.sel_x,
      y := addSignedOr c.y c.sel_y,
      sel_x := -c.sel_x,
      sel_y := -c.sel_y }
  else c

/-- The `Ord for Cursor` comparison from `src/tab/mod.rs`, as the
boolean total preorder used by the sort: lexicographic on `(y, x)`. -/
def cursorLe (a b : Cursor) : Bool :=
  if a.y = b.y then a.x ≤ b.x else a.y ≤ b.y

/-- Edit categories used by the history manager
(`Edition` in `src/tab/history.rs`). -/
inductive Edition
  | insertion
  | deletion
deriving DecidableEq, Repr

/-- `RawSnapshot` from `src/tab/history.rs`. -/
structure RawSnapshot where
  cursors : List Cursor
  buffer : List Char
deriving DecidableEq, Repr

instance : Inhabited RawSnapshot := ⟨⟨[], []⟩⟩

/-- `Snapshot` from `src/tab/history.rs`. -/
structure Snapshot where
  raw : RawSnapshot
  before : Edition
deriving DecidableEq, Repr

/-- `History` from `src/tab/history.rs`. -/
structure History where
  pre_undo : Option RawSnapshot
  inner : List Snapshot
  len : Option Nat
deriving DecidableEq, Repr

/-- `History::new`. -/
def History.new : History := ⟨none, [], none⟩

/-- `History::activate` (the `assert!(len.is_none())` is a precondition,
met at the single call site after document construction). -/
def History.activate (h : History) : History := { h with len := some 0 }

/-- The document/tab state (`Tab` in `src/tab/mod.rs`), reduced to the
fields the verified operations read or write; `tab_string` is the
configured indent string used by `src/tab/deletion.rs`. -/
structure Tab where
  lines : List Line
  cursors : List Cursor
  modified : Bool
  tab_string : List Char
  history : History
  h_scroll : Nat
deriving DecidableEq, Repr

/-- Read `self.cursors[c]` (Rust panics out of range; the verified uses
are in range). -/
def Tab.cursor (t : Tab) (c : Nat) : Cursor := t.cursors.getD c default

/-- Read `self.lines[y]`. -/
def Tab.line (t : Tab) (y : Nat) : Line := t.lines.getD y default

/-- Modelled from the spec: `Tab::has_selections` (called by
`src/tab/deletion.rs` and `src/main.rs`, body not under `src/`):
whether any cursor carries an active selection. -/
def Tab.has_selections (t : Tab) : Bool :=
  t.cursors.any Cursor.selects

/-- Optional carriage return as text. -/
def crStr (cr : Bool) : List Char := if cr then ['\r'] else []

/-- Accumulation loop of `Tab::rebuild`: every line contributes its
buffer, an optional `'\r'` and a `'\n'`. -/
def rebuildAux (lines : List Line) : List Char :=
  lines.foldr (fun l acc => l.buffer ++ crStr l.eol_cr ++ '\n' :: acc) []

/-- `Tab::rebuild` from `src/tab/mod.rs` as a pure function (the Rust
code writes the result into the scratch `tmp_buf`): join the lines,
each followed by an optional `'\r'` and a `'\n'`, then pop the final
character when there was at least one line. -/
def rebuildText (lines : List Line) : List Char :=
  if lines.isEmpty then rebuildAux lines else (rebuildAux lines).dropLast

/-- `Tab::raw_snapshot` from `src/tab/history.rs`. -/
def Tab.raw_snapshot (t : Tab) : RawSnapshot :=
  ⟨t.cursors, rebuildText t.lines⟩

/-- `Tab::log` from `src/tab/history.rs`: no-op while history is
inactive; no-op when the most recent active entry has the same kind;
otherwise truncate to the logical length, append a snapshot of the
current state tagged with the kind, and clear the pending redo
snapshot.  (`self.history.inner[i]` panics when `len` exceeds the
physical stack, unreachable in correct use; the model reads `getD`.) -/
def Tab.log (t : Tab) (before : Edition) : Tab :=
  match t.history.len with
  | none => t
  | some len =>
    let same_kind :=
      match len with
      | 0 => false
      | i + 1 => (t.history.inner.getD i ⟨default, before⟩).before = before
    if same_kind then t
    else
      { t with history :=
          { pre_undo := none,
            inner := t.history.inner.take len ++ [⟨t.raw_snapshot, before⟩],
            len := some (len + 1) } }

/-- `Tab::prepare_insertion`. -/
def Tab.prepare_insertion (t : Tab) : Tab := t.log .insertion

/-- `Tab::prepare_deletion`. -/
def Tab.prepare_deletion (t : Tab) : Tab := t.log .deletion

/-! ### Insertion (`src/tab/insertion.rs`) -/

/-- Loop body of `Tab::add_to_cursors`, acting on the cursors from
index `first_c` on (`y` is the line of cursor `first_c`, read before
the loop): on a line feed every such cursor moves one line down, with
those on line `y` reset to column 0; otherwise cursors still on line
`y` shift right by `num_x` and the loop stops at the first cursor on a
different line. -/
def addToCursorsAux (lf : Bool) (y num_x : Nat) : List Cursor → List Cursor
  | [] => []
  | cur :: rest =>
    if lf then
      { cur with x := if cur.y = y then 0 else cur.x, y := cur.y + 1 }
        :: addToCursorsAux lf y num_x rest
    else if cur.y = y then
      { cur with x := cur.x + num_x } :: addToCursorsAux lf y num_x rest
    else cur :: rest

/-- `Tab::add_to_cursors` from `src/tab/insertion.rs`.  Note that in
the non-line-feed case `num_x` is the *byte* length of the inserted
text at every call site, added to the character coordinate `x`. -/
def Tab.add_to_cursors (t : Tab) (first_c : Nat) (lf : Bool) (num_x : Nat) : Tab :=
  let y := (t.cursor first_c).y
  { t with cursors :=
      t.cursors.take first_c ++ addToCursorsAux lf y num_x (t.cursors.drop first_c) }

/-- `Tab::insert_text_no_lf`: splice `text` into line `cursor.y` at the
byte offset `len_until(cursor.x)` — i.e. at character position
`cursor.x` (saturated at the end of the buffer, as `len_until` takes at
most the whole buffer) — then shift the cursors. -/
def Tab.insert_text_no_lf (t : Tab) (c : Nat) (text : List Char) : Tab :=
  let cursor := t.cursor c
  let splice := fun (l : Line) =>
    { l with buffer := l.buffer.take cursor.x ++ text ++ l.buffer.drop cursor.x }
  let t1 := { t with lines := updateAt t.lines cursor.y splice }
  t1.add_to_cursors c false (byteLen text)

/-- `Tab::line_feed`: split line `cursor.y` at the cursor, the head
keeping the new `eol_cr` flag and the tail line inheriting the old
one, then move the cursors. -/
def Tab.line_feed (t : Tab) (c : Nat) (eol_cr : Bool) : Tab :=
  let cursor := t.cursor c
  let line := t.line cursor.y
  let new_line : Line := ⟨line.buffer.drop cursor.x, line.eol_cr⟩
  let lines1 := updateAt t.lines cursor.y
    (fun l => { l with buffer := l.buffer.take cursor.x, eol_cr := eol_cr })
  let t1 := { t with lines := insertAt lines1 (cursor.y + 1) new_line }
  t1.add_to_cursors c true 0

/-- Tail of the parts loop in `Tab::insert_text_cursor`: for each
remaining part, emit a line feed carrying the pending `eol_cr` flag,
strip the part's own `'\r'` and insert it. -/
def insertPartsAux (c : Nat) : Tab → Bool → List (List Char) → Tab × Bool
  | t, eol_cr, [] => (t, eol_cr)
  | t, eol_cr, p :: ps =>
    let t1 := t.line_feed c eol_cr
    let (part, cr) := strip_cr p
    insertPartsAux c (t1.insert_text_no_lf c part) cr ps

/-- `Tab::insert_text_cursor` from `src/tab/insertion.rs`: split the
text on `'\n'`, insert the first part, then feed the remaining parts,
and re-insert a final lone `'\r'` literally. -/
def Tab.insert_text_cursor (t : Tab) (c : Nat) (text : List Char) : Tab :=
  match splitLf text with
  | [] => t
  | p :: ps =>
    let (part, cr0) := strip_cr p
    let t1 := t.insert_text_no_lf c part
    let (t2, cr) := insertPartsAux c t1 cr0 ps
    if cr then t2.insert_text_no_lf c ['\r'] else t2

/-! ### Deletion (`src/tab/deletion.rs`) -/

/-- `checked_add_signed(x, num_x).expect(..)`: the Rust code panics on a
negative result, which is unreachable at the verified call sites; the
model clamps at zero. -/
def addSignedClamp (x : Nat) (d : Int) : Nat := ((x : Int) + d).toNat

/-- Loop body of `Tab::backspace_cursor` acting on the cursors from
index `first_c` on: cursors still on line `this_y` get their `x`
adjusted by `num_x`; when merging lines every visited cursor also moves
one line up, otherwise the loop stops at the first cursor on a
different line. -/
def backspaceCursorAux (merging : Bool) (this_y : Nat) (num_x : Int) :
    List Cursor → List Cursor
  | [] => []
  | cur :: rest =>
    if cur.y = this_y then
      let cur1 := { cur with x := addSignedClamp cur.x num_x }
      let cur2 := if merging then { cur1 with y := cur1.y - 1 } else cur1
      cur2 :: backspaceCursorAux merging this_y num_x rest
    else if merging then
      { cur with y := cur.y - 1 } :: backspaceCursorAux merging this_y num_x rest
    else cur :: rest

/-- `Tab::backspace_cursor` from `src/tab/deletion.rs`. -/
def Tab.backspace_cursor (t : Tab) (first_c : Nat) (merging : Bool) (num_x : Int) : Tab :=
  let this_y := (t.cursor first_c).y
  { t with cursors :=
      t.cursors.take first_c ++
        backspaceCursorAux merging this_y num_x (t.cursors.drop first_c) }

/-- `Tab::merge_with_prev_line`: remove line `this_y`, append its buffer
to line `prev_y` (whose `eol_cr` flag is kept), and pull the cursors
one line up, shifting those on the removed line by the previous line's
character length. -/
def Tab.merge_with_prev_line (t : Tab) (c : Nat) (this_y prev_y : Nat) : Tab :=
  let line := t.line this_y
  let lines1 := t.lines.eraseIdx this_y
  let x_add := (lines1.getD prev_y default).len_chars
  let lines2 := updateAt lines1 prev_y
    (fun p => { p with buffer := p.buffer ++ line.buffer })
  ({ t with lines := lines2 }).backspace_cursor c true (x_add : Int)

/-- The `while self.cursors[c].x < num_chars` loop at the top of
`Tab::backspace`: while the deletion still reaches across the line
start, merge with the previous line (when one exists) and consume one
unit of the count. -/
def Tab.mergeLoop (t : Tab) (c : Nat) : Nat → Tab × Nat
  | 0 => (t, 0)
  | n + 1 =>
    if (t.cursor c).x < n + 1 then
      let this_y := (t.cursor c).y
      let t1 :=
        match this_y with
        | 0 => t
        | py + 1 => t.merge_with_prev_line c (py + 1) py
      t1.mergeLoop c n
    else (t, n + 1)

/-- `Tab::backspace` from `src/tab/deletion.rs`: merge lines while the
count crosses the line start, then delete `num_chars` characters ending
at the cursor — widened to the whole configured indent string when a
simple backspace is immediately preceded by one (`slice.ends_with`,
reflected on characters: a byte-level suffix of valid UTF-8 is a
character-level suffix) — and shift the cursors left. -/
def Tab.backspace (t : Tab) (c : Nat) (num_chars0 : Nat) : Tab :=
  let simple_backspace := num_chars0 = 1
  let (t1, num_chars1) := t.mergeLoop c num_chars0
  if num_chars1 = 0 then t1
  else
    let cursor := t1.cursor c
    let line := t1.line cursor.y
    let slice := line.buffer.take cursor.x
    let is_tab := t1.tab_string.isSuffixOf slice
    let num_chars := if simple_backspace && is_tab then t1.tab_string.length else num_chars1
    let cut := fun (l : Line) =>
      { l with buffer := l.buffer.take (cursor.x - num_chars) ++ l.buffer.drop cursor.x }
    let t2 := { t1 with lines := updateAt t1.lines cursor.y cut }
    t2.backspace_cursor c false (-(num_chars : Int))

/-- Inner `loop` of `Tab::erase_selection`, one iteration per line of
the (normalized, anchor-before-cursor) selection.  The fuel is the
iteration count `(-sel_y).toNat`, exact because each pass increments
`sel_y` by one; for `sel_y > 0` the Rust loop would not terminate, a
state `sel_jump(false)` has just excluded. -/
def Tab.eraseSelLoop (t : Tab) (c : Nat) : Nat → Tab
  | 0 => t
  | fuel + 1 =>
    if (t.cursor c).sel_y = 0 then t
    else
      let x := (t.cursor c).x
      let pre := fun (cu : Cursor) =>
        { cu with sel_y := cu.sel_y + 1, sel_x := cu.sel_x + (x : Int) }
      let t1 := { t with cursors := updateAt t.cursors c pre }
      let t2 := t1.backspace c (x + 1)
      let post := fun (cu : Cursor) => { cu with sel_x := cu.sel_x - (cu.x : Int) }
      let t3 := { t2 with cursors := updateAt t2.cursors c post }
      t3.eraseSelLoop c fuel

/-- Per-cursor body of `Tab::erase_selection`: normalize the selection
to anchor-before-cursor, erase whole covered lines, then erase the
remaining same-line span (`(-sel_x) as usize`; a positive `sel_x` would
wrap in Rust, unreachable after normalization — the model clamps). -/
def Tab.eraseSelCursor (t : Tab) (c : Nat) : Tab :=
  let t1 := { t with cursors := updateAt t.cursors c (fun cu => cu.sel_jump false) }
  let t2 := t1.eraseSelLoop c (-(t1.cursor c).sel_y).toNat
  let sel_x := (t2.cursor c).sel_x
  let t3 := { t2 with cursors := updateAt t2.cursors c (fun cu => { cu with sel_x := 0 }) }
  t3.backspace c (-sel_x).toNat

/-- `Tab::erase_selection` from `src/tab/deletion.rs`: nothing happens
without a selection; otherwise log a deletion and erase every cursor's
selection, iterating the cursor indices in reverse. -/
def Tab.erase_selection (t : Tab) : Tab × Bool :=
  if !t.has_selections then (t, false)
  else
    let t1 := t.prepare_deletion
    ((List.range t1.cursors.length).reverse.foldl Tab.eraseSelCursor t1, true)

/-- `Tab::insert_text` from `src/tab/insertion.rs`. -/
def Tab.insert_text (t : Tab) (text : List Char) : Tab :=
  let t1 := t.prepare_insertion
  let t2 := (t1.erase_selection).1
  let t3 := (List.range t2.cursors.length).foldl
    (fun acc c => acc.insert_text_cursor c text) t2
  { t3 with modified := true }

/-! ### Movement and selection (`src/tab/movement.rs`) -/

/-- `Tab::unselect_if_not`: unless a selecting move is in progress,
collapse every selection, first jumping to the requested selection
boundary when a direction is given.  (The per-line dirty marking is
rendering state, omitted.) -/
def Tab.unselect_if_not (t : Tab) (select : Bool) (jump_dir : Option Bool) : Tab :=
  if select then t
  else
    let collapse := fun (cu : Cursor) =>
      if !cu.selects then cu
      else
        let cu1 := match jump_dir with
          | some dir => cu.sel_jump dir
          | none => cu
        { cu1 with sel_x := 0, sel_y := 0 }
    { t with cursors := t.cursors.map collapse }

/-- `Tab::backoff_cursor_once`: move one character left, pulling the
selection delta along, wrapping to the end of the previous line. -/
def Tab.backoff_cursor_once (t : Tab) (c : Nat) (select : Bool) : Tab :=
  let step := fun (cu : Cursor) =>
    if cu.x ≠ 0 then
      { cu with x := cu.x - 1, sel_x := cu.sel_x + (if select then 1 else 0) }
    else if cu.y ≠ 0 then
      let nx := (t.line (cu.y - 1)).len_chars
      if select then
        { cu with y := cu.y - 1, x := nx, sel_x := cu.sel_x - (nx : Int), sel_y := cu.sel_y + 1 }
      else { cu with y := cu.y - 1, x := nx }
    else cu
  { t with cursors := updateAt t.cursors c step }

/-- `Tab::advance_cursor_once`: move one character right, wrapping to
the start of the next line when one exists. -/
def Tab.advance_cursor_once (t : Tab) (c : Nat) (select : Bool) : Tab :=
  let step := fun (cu : Cursor) =>
    let chars := (t.line cu.y).len_chars
    let has_next_line := cu.y + 1 < t.lines.length
    let overflow := chars < cu.x + 1
    if overflow && has_next_line then
      if select then
        { cu with x := 0, y := cu.y + 1, sel_y := cu.sel_y - 1, sel_x := cu.sel_x + (chars : Int) }
      else { cu with x := 0, y := cu.y + 1 }
    else if !overflow then
      { cu with x := cu.x + 1, sel_x := cu.sel_x - (if select then 1 else 0) }
    else cu
  { t with cursors := updateAt t.cursors c step }

/-- `Tab::hor_jump_cursor`: iterate the single-step move `|delta|`
times in the direction of `delta`. -/
def Tab.hor_jump_cursor (t : Tab) (c : Nat) (delta : Int) (select : Bool) : Tab :=
  let num_iter := delta.natAbs
  let callback := fun (acc : Tab) (_ : Nat) =>
    if delta < 0 then acc.backoff_cursor_once c select
    else acc.advance_cursor_once c select
  (List.range num_iter).foldl callback t

/-- The `(y, x)` cursor order as a relation, for the sort. -/
def cursorR (a b : Cursor) : Prop := cursorLe a b = true

instance : DecidableRel cursorR := fun a b => instDecidableEqBool (cursorLe a b) true

/-- `Tab::check_cursors` from `src/tab/mod.rs`: stable sort by the
`(y, x)` order (`Vec::sort` is a stable sort, and a stable sort is a
unique function of the total preorder, here realized as a stable
insertion sort), then `Vec::dedup`. -/
def Tab.check_cursors (t : Tab) : Tab :=
  { t with cursors := dedupAdj (List.insertionSort cursorR t.cursors) }

/-- `Tab::horizontal_jump` from `src/tab/movement.rs`. -/
def Tab.horizontal_jump (t : Tab) (delta : Int) (select : Bool) : Tab :=
  let t1 := t.unselect_if_not select (some (delta < 0))
  let t2 := (List.range t1.cursors.length).foldl
    (fun acc c => acc.hor_jump_cursor c delta select) t1
  t2.check_cursors

/-- `Tab::latest_cursor`: index of the cursor with the highest touch
id (Rust `max_by_key` keeps the last maximal element; `unwrap` panics
on an empty cursor set). -/
def Tab.latest_cursor (t : Tab) : Nat :=
  (t.cursors.foldl
    (fun (acc : Nat × Nat × Nat) cu =>
      let (idx, best_i, best_id) := acc
      if best_id ≤ cu.id then (idx + 1, idx, cu.id) else (idx + 1, best_i, best_id))
    (0, 0, 0)).2.1

/-- Character-by-character loop of `Tab::matches`: `rest` is what is
left of the needle, `line_rest` what is left of the current line `y`;
a `'\n'` in the needle must coincide with the end of the current line
and switches to the next stored line. -/
def matchesAux (lines : List Line) : List Char → List Char → Nat → Bool
  | [], _, _ => true
  | tc :: trest, line_rest, y =>
    match line_rest with
    | [] =>
      if tc = '\n' then
        match lines.get? (y + 1) with
        | some line => matchesAux lines trest line.buffer (y + 1)
        | none => false
      else false
    | lc :: lrest =>
      if lc = tc then matchesAux lines trest lrest y else false

/-- `Tab::matches` from `src/tab/movement.rs`: does `text` literally
occur at character `x` of line `y` (line breaks joining as `'\n'`)? -/
def Tab.matches (t : Tab) (text : List Char) (x y : Nat) : Bool :=
  matchesAux t.lines text ((t.line y).buffer.drop x) y

/-- Inner `for x in start_x..=len` loop of `Tab::find`. -/
def findInLine (t : Tab) (text : List Char) (y : Nat) : Nat → Nat → Option Nat
  | x, remaining =>
    if t.matches text x y then some x
    else
      match remaining with
      | 0 => none
      | r + 1 => findInLine t text y (x + 1) r

/-- Outer `for y in start_y..lines` loop of `Tab::find`.  The third
argument is fuel: the loop visits each line at most once, so the line
count (supplied by `Tab.find`) always suffices and the exit condition
`y < lines.length` coincides with running out of fuel. -/
def findFromLine (t : Tab) (text : List Char) : Nat → Nat → Nat → Option (Nat × Nat)
  | _, _, 0 => none
  | start_x, y, fuel + 1 =>
    if y < t.lines.length then
      let len := (t.line y).len_chars
      match (if start_x ≤ len then findInLine t text y start_x (len - start_x) else none) with
      | some x => some (x, y)
      | none => findFromLine t text 0 (y + 1) fuel
    else none

/-- `Tab::find` from `src/tab/movement.rs`: first literal occurrence of
`text` at or after character `start_x` of line `start_y`. -/
def Tab.find (t : Tab) (text : List Char) (start_x start_y : Nat) : Option (Nat × Nat) :=
  findFromLine t text start_x start_y t.lines.length

/-- `while let Some((x, y)) = self.find(..)` loop of `Tab::find_all`.
The fuel bounds the iteration count; each iteration advances the scan
cursor strictly (the jump moves it past the found occurrence), so the
number of character positions in the document — the fuel used by
`Tab.find_all` — is enough for the loop to run to completion. -/
def findAllLoop (text : List Char) (num_chars : Int) :
    Tab → Cursor → Nat → Nat → Tab
  | t, _, _, 0 => t
  | t, cursor, c, fuel + 1 =>
    match t.find text cursor.x cursor.y with
    | none => t
    | some (x, y) =>
      let cur1 : Cursor := { Cursor.new c with x := x, y := y }
      let t1 := { t with cursors := t.cursors ++ [cur1] }
      let t2 := t1.hor_jump_cursor c num_chars true
      findAllLoop text num_chars t2 (t2.cursors.getLastD default) (c + 1) fuel

/-- `Tab::find_all` from `src/tab/movement.rs`: replace the whole
cursor set with one selecting cursor per literal occurrence of `text`,
scanning forward from the document start. -/
def Tab.find_all (t : Tab) (text : List Char) : Tab :=
  let num_chars : Int := text.length
  let fuel := (t.lines.map (fun l => l.len_chars + 1)).sum + 1
  let t1 := { t with cursors := [] }
  let t2 := findAllLoop text num_chars t1 (Cursor.new 0) 0 fuel
  { t2.check_cursors with h_scroll := 0 }

/-! ### History (`src/tab/history.rs`) -/

/-- `Tab::restore_snapshot`: deactivate history (`len.take()`), reset
the document to a single fresh line and cursor, re-insert the snapshot
text through the ordinary insertion path (whose `prepare_insertion`
hook is now a no-op), then install the snapshot's cursors verbatim.
(`highlight` only recomputes rendering state, omitted.) -/
def Tab.restore_snapshot (t : Tab) (snapshot : RawSnapshot) : Tab :=
  let t1 := { t with history := { t.history with len := none },
                     lines := [Line.empty], cursors := [Cursor.new 0] }
  let t2 := t1.insert_text snapshot.buffer
  { t2 with cursors := snapshot.cursors }

/-- `Tab::undo` from `src/tab/history.rs`: no-op when history is
inactive or at the bottom; stash the pre-undo snapshot on the first
undo of a chain; restore the top logical snapshot and decrement the
logical length.  (Rust temporarily takes `inner[last].raw` out and puts
it back, a net no-op on `inner`.) -/
def Tab.undo (t : Tab) : Tab :=
  match t.history.len with
  | none => t
  | some len =>
    match len with
    | 0 => t
    | last + 1 =>
      let t1 :=
        if t.history.pre_undo = none then
          { t with history := { t.history with pre_undo := some t.raw_snapshot } }
        else t
      let snapshot := (t1.history.inner.getD last ⟨default, .insertion⟩).raw
      let t2 := t1.restore_snapshot snapshot
      { t2 with history := { t2.history with len := some last } }

/-- `Tab::redo` from `src/tab/history.rs`: only acts when a pre-undo
snapshot is pending; restores it and resets the logical length to the
physical stack size. -/
def Tab.redo (t : Tab) : Tab :=
  match t.history.pre_undo with
  | none => t
  | some snapshot =>
    let t1 := { t with history := { t.history with pre_undo := none } }
    let t2 := t1.restore_snapshot snapshot
    { t2 with history := { t2.history with len := some t2.history.inner.length } }

/-- `Tab::backspace_once` from `src/tab/deletion.rs`: erase the
selections if there are any; otherwise log a deletion, advance every
cursor once when deleting forward, and backspace one character per
cursor. -/
def Tab.backspace_once (t : Tab) (forward : Bool) : Tab :=
  let (t1, happened) := t.erase_selection
  let t2 :=
    if happened then t1
    else
      let ta := t1.prepare_deletion
      let tb := if forward then ta.horizontal_jump 1 false else ta
      (List.range tb.cursors.length).foldl (fun acc c => acc.backspace c 1) tb
  { t2 with modified := true }

/-! ### Construction and clipboard -/

/-- `Tab::new` from `src/tab/mod.rs` (file path and naming omitted):
start from one fresh line and one default cursor, insert the initial
text, clear the modified flag and reset the cursor.  The history is
activated once construction is done, as §4.5 of the spec requires
logging to be inactive during initial document construction
(the current `mod.rs` body performing the activation is not under
`src/`; modelled from the spec). -/
def Tab.new (text : List Char) (tab_string : List Char) : Tab :=
  let t : Tab :=
    { lines := [Line.empty], cursors := [Cursor.new 0], modified := false,
      tab_string := tab_string, history := History.new, h_scroll := 0 }
  let t1 := t.insert_text text
  let t2 := { t1 with modified := false, cursors := [Cursor.new 0] }
  { t2 with history := t2.history.activate }

/-- The private clipboard delimiter from `src/tab/clipboard.rs`
(the three characters stored in the source plus a line feed). -/
def DELIMITER : List Char := ['â', '€', '©', '\n']

/-- Rust `str::split(sep)` for a non-empty separator string, with fuel
(each produced part consumes at least one character, so `s.length + 1`
suffices). -/
def splitSubGo (sep : List Char) : Nat → List Char → List (List Char)
  | 0, s => [s]
  | fuel + 1, s =>
    match s with
    | [] => [[]]
    | c :: rest =>
      if sep.isPrefixOf (c :: rest) then
        [] :: splitSubGo sep fuel (List.drop sep.length (c :: rest))
      else
        match splitSubGo sep fuel rest with
        | [] => [[c]]
        | p :: ps => (c :: p) :: ps

/-- Rust `str::split(sep)` on strings as character lists. -/
def splitSub (sep s : List Char) : List (List Char) :=
  splitSubGo sep (s.length + 1) s

/-- `Tab::paste` from `src/tab/clipboard.rs`, with the clipboard
contents (read from the internal clipboard or the clipboard file)
passed as a parameter.  With more than one cursor the text must carry
exactly one delimiter-separated region per cursor, or the paste is
rejected with an alert and no change; with at most one cursor the whole
text is inserted at every cursor. -/
def Tab.paste (t : Tab) (text : List Char) : Tab :=
  let cursors := t.cursors.length
  if 1 < cursors then
    let regions := (splitSub DELIMITER text).length
    if regions ≠ cursors then t
    else
      let t1 := t.prepare_insertion
      let t2 := (t1.erase_selection).1
      let t3 := ((splitSub DELIMITER text).zip (List.range regions)).foldl
        (fun acc pr => acc.insert_text_cursor pr.2 pr.1) t2
      { t3 with modified := true }
  else t.insert_text text

/-! ### Specification-side reconstructions used by the theorems -/

/-- Join parts with `'\n'`, the inverse of `splitLf`. -/
def joinLf : List (List Char) → List Char
  | [] => []
  | [p] => p
  | p :: q :: ps => p ++ '\n' :: joinLf (q :: ps)

/-- Line list produced by feeding a part sequence after an initial
buffer, mirroring the net effect of the parts loop of
`Tab::insert_text_cursor` on a fresh document: each emitted line takes
the pending buffer and carriage-return flag, and the trailing `'\r'`
of the final part is re-inserted literally. -/
def buildLines (buf : List Char) (cr : Bool) : List (List Char) → List Line
  | [] => [⟨buf ++ crStr cr, false⟩]
  | p :: ps => ⟨buf, cr⟩ :: buildLines (strip_cr p).1 (strip_cr p).2 ps

/-- The lines a fresh single-line document holds after inserting
`text`: split on `'\n'`, strip the carriage returns into flags. -/
def parseLines (text : List Char) : List Line :=
  match splitLf text with
  | [] => []
  | p :: ps => buildLines (strip_cr p).1 (strip_cr p).2 ps

/-- Text contributed after the first part when rebuilding: a line feed
before each further part and a final line feed. -/
def joinTail : List (List Char) → List Char
  | [] => ['\n']
  | p :: ps => '\n' :: (p ++ joinTail ps)

/-- Lines obtained by inserting `text` at the end of an open last line
holding `buf`. -/
def parseFrom (buf text : List Char) : List Line :=
  match splitLf text with
  | [] => []
  | p :: ps => buildLines (buf ++ (strip_cr p).1) (strip_cr p).2 ps

/-- Intermediate shape of the parts loop: the complete lines emitted so
far, the buffer of the still-open last line, and the pending
carriage-return flag. -/
def feedParts (buf : List Char) (cr : Bool) : List (List Char) → List Line × List Char × Bool
  | [] => ([], buf, cr)
  | p :: ps =>
    let pr := strip_cr p
    let rest := feedParts pr.1 pr.2 ps
    (⟨buf, cr⟩ :: rest.1, rest.2.1, rest.2.2)

/-- Build a concrete document for the example theorems: the given
lines (text and carriage-return flag), selection-free cursors at the
given `(x, y)` positions with increasing ids, an active empty history
and the given indent string. -/
def mkTab (ls : List (List Char × Bool)) (cs : List (Nat × Nat)) (tabs : List Char) : Tab :=
  { lines := ls.map (fun p => ⟨p.1, p.2⟩),
    cursors := (cs.zip (List.range cs.length)).map (fun p => ⟨p.1.1, p.1.2, 0, 0, p.2⟩),
    modified := false, tab_string := tabs,
    history := History.new.activate, h_scroll := 0 }

/-- Scenario document of claim C1: one line `"abcdefgh"`, cursors at
`(0,2)` and `(0,5)`. -/
def fanoutTab : Tab :=
  mkTab [(("abcdefgh".toList), false)] [(2, 0), (5, 0)] ("    ".toList)

/-- Two-byte-character document: one line `"ab"`, cursors at `(0,0)`
and `(0,1)`. -/
def fanoutTabMb : Tab :=
  mkTab [(("ab".toList), false)] [(0, 0), (1, 0)] ("    ".toList)

/-- Document `"foo"` with one cursor, for the search claims. -/
def fooTab : Tab :=
  mkTab [(("foo".toList), false)] [(0, 0)] ("    ".toList)

/-- One line `"abcde"` with cursors at `(0,4)` and `(0,5)`. -/
def dupTab : Tab :=
  mkTab [(("abcde".toList), false)] [(4, 0), (5, 0)] ("    ".toList)

/-- Document `" x"` with one cursor at `(0,1)` and a two-space indent
string. -/
def softTab : Tab :=
  mkTab [((" x".toList), false)] [(1, 0)] ("  ".toList)

/-- Document `"a"` with one cursor at the document start. -/
def originTab : Tab :=
  mkTab [(("a".toList), false)] [(0, 0)] ("    ".toList)

/-- Document `"ab"` with a single cursor at `(0,1)`. -/
def pasteTab : Tab :=
  mkTab [(("ab".toList), false)] [(1, 0)] ("    ".toList)

/-- A clipboard text with one delimiter, i.e. two regions. -/
def twoRegions : List Char := 'x' :: (DELIMITER ++ ['y'])

/-- History state reached by: new empty tab, type `"a"`, backspace it,
undo once.  Its history is active at logical length 1 with a pending
redo snapshot. -/
def chainedUndoTab : Tab :=
  ((((Tab.new [] ("    ".toList)).insert_text (("a".toList))).backspace_once false)).undo

/-- The document whose text is `"foo\nfoo bar foo\n"`. -/
def foosTab : Tab :=
  Tab.new ("foo\nfoo bar foo\n".toList) ("    ".toList)

/-- Position where a cursor's selection starts (cursor plus delta). -/
def selStart (cu : Cursor) : Nat × Nat :=
  (addSignedOr cu.x cu.sel_x, addSignedOr cu.y cu.sel_y)

/-- The selection delta pair of a cursor, used to state that editing
operations do not create or destroy selections. -/
def selPair (cu : Cursor) : Int × Int := (cu.sel_x, cu.sel_y)

/-- The deletion cut of `Tab::backspace`: remove the `n` characters
ending at position `x` of a line buffer. -/
def cutAt (n x : Nat) (l : Line) : Line :=
  { l with buffer := l.buffer.take (x - n) ++ l.buffer.drop x }

/-- A tab whose history was never activated. -/
def inactiveTab : Tab := { fooTab with history := History.new }

/-- Splice `s` into a buffer at character position `x` (the effect of
`String::insert_str` at the byte offset of character `x`). -/
def spliceBuf (x : Nat) (s b : List Char) : List Char :=
  b.take x ++ s ++ b.drop x

/-- Splice applied to a line record. -/
def lineSplice (x : Nat) (s : List Char) (l : Line) : Line :=
  { l with buffer := spliceBuf x s l.buffer }

/-- Normal form of a multi-cursor insertion state: each pair carries an
original cursor and the text currently sitting at its site; sites are
spliced right to left so every site keeps its original coordinates. -/
def insertAll (ps : List (Cursor × List Char)) (L : List Line) : List Line :=
  ps.foldr (fun pr acc => updateAt acc pr.1.y (lineSplice pr.1.x pr.2)) L

/-- Bump a per-line shift table at one line. -/
def bumpF (f : Nat → Nat) (y n : Nat) : Nat → Nat :=
  fun z => if z = y then f z + n else f z

/-- Cursor positions in a multi-cursor insertion state: every cursor
moves right by the lengths of the site texts at or before it on its
own line; `f` accumulates the lengths contributed by earlier pairs. -/
def shiftedFromF (f : Nat → Nat) : List (Cursor × List Char) → List Cursor
  | [] => []
  | (cu, s) :: rest =>
    { cu with x := cu.x + f cu.y + s.length } ::
      shiftedFromF (bumpF f cu.y s.length) rest

/-- Cursor positions of the insertion state. -/
def shiftedCursors (ps : List (Cursor × List Char)) : List Cursor :=
  shiftedFromF (fun _ => 0) ps

/-- Iterate a document operation. -/
def applyN (f : Tab → Tab) : Nat → Tab → Tab
  | 0, t => t
  | n + 1, t => applyN f n (f t)

/-- Total length of the site texts on line `y`. -/
def shiftFor (y : Nat) : List (Cursor × List Char) → Nat
  | [] => 0
  | pr :: rest => (if pr.1.y = y then pr.2.length else 0) + shiftFor y rest

/-- Shift table accumulated over a pair list. -/
def accF (f : Nat → Nat) (ps : List (Cursor × List Char)) : Nat → Nat :=
  ps.foldl (fun g pr => bumpF g pr.1.y pr.2.length) f

/-- Remove the character at index `z` of a buffer. -/
def deleteOne (z : Nat) (b : List Char) : List Char :=
  b.take z ++ b.drop (z + 1)

/-- Character removal applied to a line record. -/
def lineCut (z : Nat) (l : Line) : Line :=
  { l with buffer := deleteOne z l.buffer }

/-- Drop the final character of a site text. -/
def dropLastPair (pr : Cursor × List Char) : Cursor × List Char :=
  (pr.1, pr.2.dropLast)

/-- Lines `"abc"` and `"d"` with cursors at `(0,1)`, `(0,2)` and
`(1,1)` and a one-character indent string. -/
def inverseTab : Tab :=
  mkTab [(("abc".toList), false), (("d".toList), false)]
    [(1, 0), (2, 0), (1, 1)] [' ']

/-- Lines `"ab"` and `"cd"` with cursors at `(0,1)` and `(1,0)` and a
two-space indent string. -/
def multiTab : Tab :=
  mkTab [(("ab".toList), false), (("cd".toList), false)] [(1, 0), (0, 1)] ("  ".toList)

/-!
## Theorems

Each claim of the specification review is settled by exactly one named
theorem below (with a closed counterexample theorem where the claim as
stated fails on the code, and a closed witness where the main theorem
carries hypotheses).
-/

/-- C1.  The concrete fan-out scenario of the claim does hold: on the
single line `"abcdefgh"` with cursors `(0,2)` and `(0,5)`,
`insert_text("X")` yields `"abXcdeXfgh"` with cursors `(0,3)` and
`(0,7)`.  The general sentence — a same-line cursor at or after the
insertion point shifts right by the inserted *character* count — is
violated by the code whenever the text has multi-byte characters:
`add_to_cursors` receives `text.len()`, the UTF-8 *byte* length, and
adds it to the character coordinate `x` (contradicting the code's own
comment that `x` is in char units, not bytes).  Inserting `"é"`
(1 character, 2 bytes) on line `"ab"` at cursors `(0,0)` and `(0,1)`
leaves the cursors at `x = 2` and `x = 5` — not the claimed shift by
the character count, which would give `x = 1` and `x = 3` — and the
second cursor even exceeds the 4-character line `"éabé"`. -/
theorem insert_fanout_byte_bug :
    ((fanoutTab.insert_text ("X".toList)).lines
        = [⟨("abXcdeXfgh".toList), false⟩]
      ∧ (fanoutTab.insert_text ("X".toList)).cursors.map (fun cu => (cu.x, cu.y))
        = [(3, 0), (7, 0)])
    ∧ ((fanoutTabMb.insert_text ("é".toList)).lines = [⟨("éabé".toList), false⟩]
      ∧ (fanoutTabMb.insert_text ("é".toList)).cursors.map (fun cu => (cu.x, cu.y))
        = [(2, 0), (5, 0)]
      ∧ ("é".toList).length = 1
      ∧ [(2, 0), (5, 0)] ≠ [((0 : Nat) + 1, (0 : Nat)), (1 + 1 + 1, 0)]) := by
  decide

/-- C2.  The cursor set is *not* always non-empty: `find_all` with a
search text that does not occur clears the cursor set and never adds a
cursor back.  On the document `"foo"` (which starts with one cursor),
`find_all("z")` returns with zero cursors. -/
theorem find_all_no_match_empties_cursors :
    fooTab.cursors ≠ [] ∧ (fooTab.find_all ("z".toList)).cursors = [] := by
  decide

/-- C7.  `find_all("foo")` on the document `"foo\nfoo bar foo\n"`
replaces the cursor set with exactly three cursors, each carrying a
selection of 3 characters, starting at `(x=0,y=0)`, `(x=0,y=1)` and
`(x=8,y=1)` (the cursors themselves sit at the match ends with
backward deltas `sel_x = -3`). -/
theorem find_all_scenario :
    (foosTab.find_all ("foo".toList)).cursors.length = 3
    ∧ (foosTab.find_all ("foo".toList)).cursors.map selStart
      = [(0, 0), (0, 1), (8, 1)]
    ∧ (foosTab.find_all ("foo".toList)).cursors.map (fun cu => cu.sel_x.natAbs)
      = [3, 3, 3]
    ∧ (foosTab.find_all ("foo".toList)).cursors.map (fun cu => cu.sel_y) = [0, 0, 0] := by
  decide

/-- C3, counterexample.  A public mutating call can leave two cursors
with the same `(y, x)` position: on the 5-character line `"abcde"` with
cursors at `(0,4)` and `(0,5)`, `horizontal_jump(1, true)` advances the
first cursor to `(0,5)` (gaining selection delta `-1`) while the second
cannot move; `check_cursors` sorts them but `Vec::dedup` compares whole
cursor records, and the two differ in `sel_x` (and id), so both
survive. -/
theorem duplicate_position_after_horizontal_jump :
    (dupTab.horizontal_jump 1 true).cursors.map (fun cu => (cu.y, cu.x))
      = [(0, 5), (0, 5)]
    ∧ (dupTab.horizontal_jump 1 true).cursors.length = 2 := by
  decide

/-- C4, counterexample.  From `chainedUndoTab` — a state with history
active, logical length 1 (one snapshot logged) and a pending pre-undo
snapshot from an earlier undo — `undo(); redo()` does not restore the
pre-undo state: the document held `"a"` with the cursor at `(0,1)`
before the undo, but after `undo(); redo()` it holds the empty line
with the cursor at `(0,0)` (redo jumps to the older stashed pre-undo
snapshot instead). -/
theorem undo_redo_not_inverse_after_chained_undo :
    chainedUndoTab.history.len = some 1
    ∧ chainedUndoTab.lines = [⟨("a".toList), false⟩]
    ∧ (chainedUndoTab.undo.redo).lines = [⟨[], false⟩]
    ∧ (chainedUndoTab.undo.redo).lines ≠ chainedUndoTab.lines := by
  decide

/-- C6, counterexample.  `insert_text(T)` followed by `len_chars(T)`
single backspaces need not restore the document even for a line-break
free `T`: on the document `" x"` with the cursor at `(0,1)` and indent
string `"  "`, inserting `" "` produces `"  x"` with the cursor at
`(0,2)`; the single backspace then finds the text before the deletion
point ending in the two-space indent string and deletes both spaces
(soft-tab collapse), leaving `"x"` with the cursor at `(0,0)`. -/
theorem insert_backspace_softtab_counterexample :
    (" ".toList).length = 1
    ∧ ('\n' ∈ (" ".toList)) = False
    ∧ ((softTab.insert_text (" ".toList)).backspace_once false).lines
      = [⟨("x".toList), false⟩]
    ∧ ((softTab.insert_text (" ".toList)).backspace_once false).lines ≠ softTab.lines := by
  decide

/-- C8, counterexample.  With a single active cursor and a clipboard
holding two delimiter-separated regions, `paste` does not report a
mismatch: the `cursors > 1` guard fails and the whole clipboard text —
delimiter included — is inserted, so the document changes. -/
theorem paste_region_mismatch_single_cursor_inserts :
    pasteTab.cursors.length = 1
    ∧ (splitSub DELIMITER twoRegions).length = 2
    ∧ (pasteTab.paste twoRegions).lines ≠ pasteTab.lines := by
  decide

/-- C9, counterexample.  A backspace at the very start of the document
deletes nothing: on document `"a"` with the cursor at `(0,0)`,
`backspace_once(false)` has no selection to erase, cannot merge with a
previous line, and removes no character — the claim's "exactly one
character is deleted per cursor" fails there. -/
theorem backspace_at_document_start_deletes_nothing :
    (originTab.backspace_once false).lines = originTab.lines
    ∧ (originTab.backspace_once false).cursors = originTab.cursors := by
  decide

/-- C8.  With more than one active cursor, `paste` is atomic: whenever
the number of delimiter-separated clipboard regions differs from the
number of cursors, the whole state is left untouched (only an alert is
raised); no cursor receives a partial insertion.  (With at most one
cursor the clipboard text is inserted unconditionally, see the
counterexample.) -/
theorem paste_multi_cursor_mismatch_unchanged (t : Tab) (text : List Char)
    (h1 : 1 < t.cursors.length)
    (h2 : (splitSub DELIMITER text).length ≠ t.cursors.length) :
    t.paste text = t := by
  unfold Tab.paste
  simp only [if_pos h1, if_pos h2]

/-- C8, witness: two cursors, one clipboard region. -/
theorem paste_multi_cursor_mismatch_unchanged_witness :
    1 < fanoutTab.cursors.length
    ∧ (splitSub DELIMITER ("x".toList)).length ≠ fanoutTab.cursors.length
    ∧ fanoutTab.paste ("x".toList) = fanoutTab :=
  ⟨by decide, by decide,
    paste_multi_cursor_mismatch_unchanged fanoutTab ("x".toList) (by decide) (by decide)⟩

theorem cursorR_iff (a b : Cursor) :
    cursorR a b ↔ (a.y < b.y ∨ (a.y = b.y ∧ a.x ≤ b.x)) := by
  unfold cursorR cursorLe
  by_cases h : a.y = b.y
  · simp [h]
  · simp [h]; omega

instance : IsTotal Cursor cursorR :=
  ⟨fun a b => by rw [cursorR_iff, cursorR_iff]; omega⟩

instance : IsTrans Cursor cursorR :=
  ⟨fun a b c hab hbc => by
    rw [cursorR_iff] at hab hbc ⊢
    omega⟩

theorem dedupAdjAux_sublist [DecidableEq α] (prev : α) (l : List α) :
    List.Sublist (dedupAdjAux prev l) l := by
  induction l generalizing prev with
  | nil => simp [dedupAdjAux]
  | cons b rest ih =>
    unfold dedupAdjAux
    by_cases h : prev = b
    · simpa [h] using (ih b).cons b
    · simpa [h] using (ih b).cons₂ b

theorem dedupAdj_sublist [DecidableEq α] (l : List α) :
    List.Sublist (dedupAdj l) l := by
  cases l with
  | nil => simp [dedupAdj]
  | cons a rest => exact (dedupAdjAux_sublist a rest).cons₂ a

theorem chain_ne_dedupAdjAux [DecidableEq α] (prev : α) (l : List α) :
    List.Chain' (fun a b => a ≠ b) (prev :: dedupAdjAux prev l) := by
  induction l generalizing prev with
  | nil => simp [dedupAdjAux]
  | cons b rest ih =>
    by_cases h : prev = b
    · have e : dedupAdjAux prev (b :: rest) = dedupAdjAux prev rest := by
        simp [dedupAdjAux, h]
      rw [e]
      exact ih prev
    · have e : dedupAdjAux prev (b :: rest) = b :: dedupAdjAux b rest := by
        simp [dedupAdjAux, h]
      rw [e, List.chain'_cons]
      exact ⟨h, ih b⟩

theorem chain_ne_dedupAdj [DecidableEq α] (l : List α) :
    List.Chain' (fun a b => a ≠ b) (dedupAdj l) := by
  cases l with
  | nil => simp [dedupAdj]
  | cons a rest => exact chain_ne_dedupAdjAux a rest

/-- C3, as amended.  After the cursor-normalizing operations — the
jump, seek and search operations that end with the `check_cursors`
pass, `horizontal_jump` and `find_all` among the modelled ones — the
cursor set is sorted ascending by the `(y, x)` comparison (ties
allowed), and no two *adjacent* cursor records are identical (Rust
`Vec::dedup` removes only adjacent duplicates of the whole record);
the same holds for any direct run of the pass.  The original claim's
stronger guarantees do not hold: two cursors that share the same
`(y, x)` position but differ in selection state or id both survive
(see the counterexample), and the editing and history operations
(`insert_text`, `backspace_once`, `erase_selection`, `undo`, `redo`)
never run the pass at all. -/
theorem check_cursors_sorted_dedup (t u v : Tab) (d : Int) (s : Bool) (x : List Char) :
    (List.Sorted cursorR (t.check_cursors).cursors
      ∧ List.Chain' (fun a b => a ≠ b) (t.check_cursors).cursors)
    ∧ (List.Sorted cursorR (u.horizontal_jump d s).cursors
      ∧ List.Chain' (fun a b => a ≠ b) (u.horizontal_jump d s).cursors)
    ∧ (List.Sorted cursorR (v.find_all x).cursors
      ∧ List.Chain' (fun a b => a ≠ b) (v.find_all x).cursors) := by
  have key : ∀ (w : Tab), List.Sorted cursorR (w.check_cursors).cursors
      ∧ List.Chain' (fun a b => a ≠ b) (w.check_cursors).cursors := by
    intro w
    constructor
    · exact List.Pairwise.sublist (dedupAdj_sublist _)
        (List.sorted_insertionSort cursorR w.cursors)
    · exact chain_ne_dedupAdj _
  refine ⟨key t, ?_, ?_⟩
  · unfold Tab.horizontal_jump
    exact key _
  · unfold Tab.find_all
    exact key _

theorem updateAt_length (l : List α) (i : Nat) (f : α → α) :
    (updateAt l i f).length = l.length := by
  induction l generalizing i with
  | nil => rfl
  | cons a rest ih =>
    cases i with
    | zero => rfl
    | succ j => simpa [updateAt] using ih j

theorem updateAt_ne_nil (l : List α) (i : Nat) (f : α → α) (h : l ≠ []) :
    updateAt l i f ≠ [] := by
  intro e
  apply h
  have := updateAt_length l i f
  rw [e] at this
  exact List.eq_nil_of_length_eq_zero this.symm

theorem insertAt_ne_nil (l : List α) (i : Nat) (a : α) : insertAt l i a ≠ [] := by
  unfold insertAt
  intro e
  have : a ∈ l.take i ++ a :: l.drop i := by simp
  rw [e] at this
  cases this

theorem eraseIdx_succ_ne_nil (l : List α) (i : Nat) (h : l ≠ []) :
    l.eraseIdx (i + 1) ≠ [] := by
  cases l with
  | nil => exact absurd rfl h
  | cons a rest => simp [List.eraseIdx]

/-- Fold preservation helper for the per-cursor loops. -/
theorem foldl_preserve {β : Type} (P : Tab → Prop) (f : Tab → β → Tab)
    (hf : ∀ t x, P t → P (f t x)) :
    ∀ (l : List β) (t : Tab), P t → P (l.foldl f t) := by
  intro l
  induction l with
  | nil => intro t h; exact h
  | cons a rest ih => intro t h; exact ih (f t a) (hf t a h)

theorem lines_add_to_cursors (t : Tab) (c : Nat) (lf : Bool) (n : Nat) :
    (t.add_to_cursors c lf n).lines = t.lines := rfl

theorem lines_log (t : Tab) (e : Edition) : (t.log e).lines = t.lines := by
  unfold Tab.log
  cases t.history.len with
  | none => rfl
  | some len => dsimp only; split <;> rfl

theorem lines_ne_insert_text_no_lf (t : Tab) (c : Nat) (p : List Char)
    (h : t.lines ≠ []) : (t.insert_text_no_lf c p).lines ≠ [] := by
  unfold Tab.insert_text_no_lf
  exact updateAt_ne_nil _ _ _ h

theorem lines_ne_line_feed (t : Tab) (c : Nat) (cr : Bool) :
    (t.line_feed c cr).lines ≠ [] := by
  unfold Tab.line_feed
  exact insertAt_ne_nil _ _ _

theorem lines_ne_insertPartsAux (c : Nat) (ps : List (List Char)) :
    ∀ (t : Tab) (cr : Bool), t.lines ≠ [] → (insertPartsAux c t cr ps).1.lines ≠ [] := by
  induction ps with
  | nil => intro t cr h; exact h
  | cons p rest ih =>
    intro t cr h
    unfold insertPartsAux
    exact ih _ _ (lines_ne_insert_text_no_lf _ _ _ (lines_ne_line_feed _ _ _))

theorem lines_ne_insert_text_cursor (t : Tab) (c : Nat) (text : List Char)
    (h : t.lines ≠ []) : (t.insert_text_cursor c text).lines ≠ [] := by
  unfold Tab.insert_text_cursor
  cases splitLf text with
  | nil => exact h
  | cons p ps =>
    dsimp only
    have h1 := lines_ne_insert_text_no_lf t c (strip_cr p).1 h
    have h2 := lines_ne_insertPartsAux c ps _ (strip_cr p).2 h1
    split
    · exact lines_ne_insert_text_no_lf _ _ _ h2
    · exact h2

theorem lines_ne_backspace_cursor (t : Tab) (c : Nat) (m : Bool) (n : Int)
    (h : t.lines ≠ []) : (t.backspace_cursor c m n).lines ≠ [] := h

theorem lines_ne_merge_with_prev_line (t : Tab) (c : Nat) (py : Nat)
    (h : t.lines ≠ []) : (t.merge_with_prev_line c (py + 1) py).lines ≠ [] := by
  unfold Tab.merge_with_prev_line
  exact lines_ne_backspace_cursor _ _ _ _
    (updateAt_ne_nil _ _ _ (eraseIdx_succ_ne_nil _ _ h))

theorem lines_ne_mergeLoop (t : Tab) (c : Nat) (n : Nat)
    (h : t.lines ≠ []) : (t.mergeLoop c n).1.lines ≠ [] := by
  induction n generalizing t with
  | zero => exact h
  | succ m ih =>
    unfold Tab.mergeLoop
    dsimp only
    split
    · cases hy : (t.cursor c).y with
      | zero => simpa [hy] using ih t h
      | succ py => simpa [hy] using ih _ (lines_ne_merge_with_prev_line t c py h)
    · exact h

theorem lines_ne_backspace (t : Tab) (c : Nat) (n : Nat)
    (h : t.lines ≠ []) : (t.backspace c n).lines ≠ [] := by
  unfold Tab.backspace
  dsimp only
  split
  · exact lines_ne_mergeLoop t c n h
  · exact lines_ne_backspace_cursor _ _ _ _
      (updateAt_ne_nil _ _ _ (lines_ne_mergeLoop t c n h))

theorem lines_ne_eraseSelLoop (t : Tab) (c : Nat) (fuel : Nat)
    (h : t.lines ≠ []) : (t.eraseSelLoop c fuel).lines ≠ [] := by
  induction fuel generalizing t with
  | zero => exact h
  | succ m ih =>
    unfold Tab.eraseSelLoop
    dsimp only
    split
    · exact h
    · exact ih _ (lines_ne_backspace _ _ _ h)

theorem lines_ne_eraseSelCursor (t : Tab) (c : Nat)
    (h : t.lines ≠ []) : (t.eraseSelCursor c).lines ≠ [] := by
  unfold Tab.eraseSelCursor
  exact lines_ne_backspace _ _ _ (lines_ne_eraseSelLoop _ _ _ h)

theorem lines_ne_erase_selection (t : Tab)
    (h : t.lines ≠ []) : (t.erase_selection).1.lines ≠ [] := by
  unfold Tab.erase_selection
  split
  · exact h
  · dsimp only
    refine foldl_preserve (fun u => u.lines ≠ []) _ ?_ _ _ ?_
    · intro u x hu; exact lines_ne_eraseSelCursor u x hu
    · simpa [Tab.prepare_deletion, lines_log] using h

theorem lines_ne_insert_text (t : Tab) (text : List Char)
    (h : t.lines ≠ []) : (t.insert_text text).lines ≠ [] := by
  unfold Tab.insert_text
  dsimp only
  refine foldl_preserve (fun u => u.lines ≠ []) _ ?_ _ _ ?_
  · intro u x hu; exact lines_ne_insert_text_cursor u x _ hu
  · refine lines_ne_erase_selection _ ?_
    simpa [Tab.prepare_insertion, lines_log] using h

theorem lines_unselect_if_not (t : Tab) (s : Bool) (d : Option Bool) :
    (t.unselect_if_not s d).lines = t.lines := by
  unfold Tab.unselect_if_not
  split <;> rfl

theorem lines_hor_jump_cursor (t : Tab) (c : Nat) (d : Int) (s : Bool) :
    (t.hor_jump_cursor c d s).lines = t.lines := by
  unfold Tab.hor_jump_cursor
  dsimp only
  generalize List.range d.natAbs = l
  induction l generalizing t with
  | nil => rfl
  | cons a rest ih =>
    rw [List.foldl_cons]
    rw [ih]
    split <;> rfl

theorem lines_check_cursors (t : Tab) : (t.check_cursors).lines = t.lines := rfl

theorem lines_horizontal_jump (t : Tab) (d : Int) (s : Bool) :
    (t.horizontal_jump d s).lines = t.lines := by
  unfold Tab.horizontal_jump
  dsimp only
  rw [lines_check_cursors]
  have : ∀ (l : List Nat) (u : Tab), u.lines = t.lines →
      (l.foldl (fun acc c => acc.hor_jump_cursor c d s) u).lines = t.lines := by
    intro l
    induction l with
    | nil => intro u hu; exact hu
    | cons a rest ih =>
      intro u hu
      exact ih _ (by rw [lines_hor_jump_cursor]; exact hu)
  exact this _ _ (lines_unselect_if_not _ _ _)

theorem lines_findAllLoop (text : List Char) (n : Int) :
    ∀ (fuel : Nat) (t : Tab) (cu : Cursor) (c : Nat),
      (findAllLoop text n t cu c fuel).lines = t.lines := by
  intro fuel
  induction fuel with
  | zero => intro t cu c; rfl
  | succ m ih =>
    intro t cu c
    unfold findAllLoop
    cases t.find text cu.x cu.y with
    | none => rfl
    | some p =>
      dsimp only
      rw [ih]
      rw [lines_hor_jump_cursor]

theorem lines_find_all (t : Tab) (text : List Char) :
    (t.find_all text).lines = t.lines := by
  unfold Tab.find_all
  dsimp only
  rw [lines_check_cursors, lines_findAllLoop]

theorem lines_ne_restore_snapshot (t : Tab) (s : RawSnapshot) :
    (t.restore_snapshot s).lines ≠ [] := by
  unfold Tab.restore_snapshot
  dsimp only
  exact lines_ne_insert_text _ _ (by simp)

theorem lines_ne_undo (t : Tab) (h : t.lines ≠ []) : (t.undo).lines ≠ [] := by
  unfold Tab.undo
  cases t.history.len with
  | none => exact h
  | some len =>
    cases len with
    | zero => exact h
    | succ last => exact lines_ne_restore_snapshot _ _

theorem lines_ne_redo (t : Tab) (h : t.lines ≠ []) : (t.redo).lines ≠ [] := by
  unfold Tab.redo
  cases t.history.pre_undo with
  | none => exact h
  | some s => exact lines_ne_restore_snapshot _ _

theorem lines_ne_backspace_once (t : Tab) (fwd : Bool)
    (h : t.lines ≠ []) : (t.backspace_once fwd).lines ≠ [] := by
  unfold Tab.backspace_once
  dsimp only
  split
  · exact lines_ne_erase_selection t h
  · refine foldl_preserve (fun u => u.lines ≠ []) _ ?_ _ _ ?_
    · intro u x hu; exact lines_ne_backspace u x 1 hu
    · split
      · rw [lines_horizontal_jump]
        simpa [Tab.prepare_deletion, lines_log] using lines_ne_erase_selection t h
      · simpa [Tab.prepare_deletion, lines_log] using lines_ne_erase_selection t h

theorem lines_ne_paste (t : Tab) (text : List Char)
    (h : t.lines ≠ []) : (t.paste text).lines ≠ [] := by
  unfold Tab.paste
  dsimp only
  split
  · split
    · exact h
    · dsimp only
      refine foldl_preserve (fun u => u.lines ≠ []) _ ?_ _ _ ?_
      · intro u x hu; exact lines_ne_insert_text_cursor u _ _ hu
      · refine lines_ne_erase_selection _ ?_
        simpa [Tab.prepare_insertion, lines_log] using h
  · exact lines_ne_insert_text t text h

/-- C10.  The line store is never empty: a freshly constructed tab has
at least one line, and every modeled public operation — insertion,
backspace, selection erasure, undo, redo, horizontal jumps, search,
paste — preserves a non-empty line store (a line is only ever removed
by `merge_with_prev_line`, which merges line `y+1` into the remaining
line `y`, and snapshot restoration starts from one fresh line). -/
theorem lines_never_empty (t : Tab) (text tabs : List Char) (fwd sel : Bool)
    (d : Int) (h : t.lines ≠ []) :
    (Tab.new text tabs).lines ≠ []
    ∧ (t.insert_text text).lines ≠ []
    ∧ (t.backspace_once fwd).lines ≠ []
    ∧ (t.erase_selection).1.lines ≠ []
    ∧ (t.undo).lines ≠ []
    ∧ (t.redo).lines ≠ []
    ∧ (t.horizontal_jump d sel).lines ≠ []
    ∧ (t.find_all text).lines ≠ []
    ∧ (t.paste text).lines ≠ [] := by
  refine ⟨?_, lines_ne_insert_text t text h, lines_ne_backspace_once t fwd h,
    lines_ne_erase_selection t h, lines_ne_undo t h, lines_ne_redo t h,
    ?_, ?_, lines_ne_paste t text h⟩
  · unfold Tab.new
    dsimp only
    exact lines_ne_insert_text _ _ (by simp)
  · rw [lines_horizontal_jump]; exact h
  · rw [lines_find_all]; exact h

theorem cursors_log (t : Tab) (e : Edition) : (t.log e).cursors = t.cursors := by
  unfold Tab.log
  cases t.history.len with
  | none => rfl
  | some len => dsimp only; split <;> rfl

theorem log_inactive (t : Tab) (k : Edition) (h : t.history.len = none) :
    t.log k = t := by
  unfold Tab.log
  rw [h]

theorem log_same_kind (t : Tab) (k : Edition) (i : Nat) (s : Snapshot)
    (h1 : t.history.len = some (i + 1)) (h2 : t.history.inner.get? i = some s)
    (h3 : s.before = k) : t.log k = t := by
  unfold Tab.log
  rw [h1]
  have h2' : t.history.inner[i]? = some s := by
    rw [← List.get?_eq_getElem?]
    exact h2
  have hcond : (t.history.inner[i]?.getD ⟨default, k⟩).before = k := by
    simp [h2', h3]
  simp [List.getD, hcond]

theorem log_records (t : Tab) (k : Edition) (l : Nat)
    (h1 : t.history.len = some l)
    (h2 : l = 0 ∨ ∃ s, t.history.inner.get? (l - 1) = some s ∧ s.before ≠ k) :
    t.log k = { t with history :=
      ⟨none, t.history.inner.take l ++ [⟨t.raw_snapshot, k⟩], some (l + 1)⟩ } := by
  unfold Tab.log
  rw [h1]
  cases l with
  | zero => simp
  | succ i =>
    rcases h2 with h0 | ⟨s, hs, hb⟩
    · exact absurd h0 (by simp)
    · have hs' : t.history.inner[i]? = some s := by
        rw [← List.get?_eq_getElem?]
        simpa using hs
      have hcond : ¬ (t.history.inner[i]?.getD ⟨default, k⟩).before = k := by
        simp [hs', hb]
      simp [List.getD, hcond]

theorem hist_add_to_cursors (t : Tab) (c : Nat) (lf : Bool) (n : Nat) :
    (t.add_to_cursors c lf n).history = t.history := rfl

theorem hist_insert_text_no_lf (t : Tab) (c : Nat) (p : List Char) :
    (t.insert_text_no_lf c p).history = t.history := rfl

theorem hist_line_feed (t : Tab) (c : Nat) (cr : Bool) :
    (t.line_feed c cr).history = t.history := rfl

theorem hist_insertPartsAux (c : Nat) (ps : List (List Char)) :
    ∀ (t : Tab) (cr : Bool), (insertPartsAux c t cr ps).1.history = t.history := by
  induction ps with
  | nil => intro t cr; rfl
  | cons p rest ih =>
    intro t cr
    unfold insertPartsAux
    rw [ih]
    rfl

theorem hist_insert_text_cursor (t : Tab) (c : Nat) (x : List Char) :
    (t.insert_text_cursor c x).history = t.history := by
  unfold Tab.insert_text_cursor
  cases splitLf x with
  | nil => rfl
  | cons p ps =>
    dsimp only
    split
    · rw [hist_insert_text_no_lf, hist_insertPartsAux, hist_insert_text_no_lf]
    · rw [hist_insertPartsAux, hist_insert_text_no_lf]

theorem hist_backspace_cursor (t : Tab) (c : Nat) (m : Bool) (n : Int) :
    (t.backspace_cursor c m n).history = t.history := rfl

theorem hist_merge_with_prev_line (t : Tab) (c : Nat) (a b : Nat) :
    (t.merge_with_prev_line c a b).history = t.history := rfl

theorem hist_mergeLoop (t : Tab) (c : Nat) (n : Nat) :
    (t.mergeLoop c n).1.history = t.history := by
  induction n generalizing t with
  | zero => rfl
  | succ m ih =>
    unfold Tab.mergeLoop
    dsimp only
    split
    · cases (t.cursor c).y with
      | zero => exact ih t
      | succ py => rw [ih, hist_merge_with_prev_line]
    · rfl

theorem hist_backspace (t : Tab) (c : Nat) (n : Nat) :
    (t.backspace c n).history = t.history := by
  unfold Tab.backspace
  dsimp only
  split
  · exact hist_mergeLoop t c n
  · rw [hist_backspace_cursor]
    exact hist_mergeLoop t c n

theorem hist_unselect_if_not (t : Tab) (s : Bool) (d : Option Bool) :
    (t.unselect_if_not s d).history = t.history := by
  unfold Tab.unselect_if_not
  split <;> rfl

theorem hist_hor_jump_cursor (t : Tab) (c : Nat) (d : Int) (s : Bool) :
    (t.hor_jump_cursor c d s).history = t.history := by
  unfold Tab.hor_jump_cursor
  dsimp only
  generalize List.range d.natAbs = l
  induction l generalizing t with
  | nil => rfl
  | cons a rest ih =>
    rw [List.foldl_cons, ih]
    split <;> rfl

theorem hist_check_cursors (t : Tab) : (t.check_cursors).history = t.history := rfl

theorem hist_horizontal_jump (t : Tab) (d : Int) (s : Bool) :
    (t.horizontal_jump d s).history = t.history := by
  unfold Tab.horizontal_jump
  dsimp only
  rw [hist_check_cursors]
  have : ∀ (l : List Nat) (u : Tab), u.history = t.history →
      (l.foldl (fun acc c => acc.hor_jump_cursor c d s) u).history = t.history := by
    intro l
    induction l with
    | nil => intro u hu; exact hu
    | cons a rest ih =>
      intro u hu
      exact ih _ (by rw [hist_hor_jump_cursor]; exact hu)
  exact this _ _ (hist_unselect_if_not _ _ _)

theorem selPair_addToCursorsAux (lf : Bool) (y n : Nat) (l : List Cursor) :
    (addToCursorsAux lf y n l).map selPair = l.map selPair := by
  induction l with
  | nil => rfl
  | cons cu rest ih =>
    unfold addToCursorsAux
    split
    · simpa [selPair] using ih
    · split
      · simpa [selPair] using ih
      · rfl

theorem selPair_add_to_cursors (t : Tab) (c : Nat) (lf : Bool) (n : Nat) :
    (t.add_to_cursors c lf n).cursors.map selPair = t.cursors.map selPair := by
  unfold Tab.add_to_cursors
  dsimp only
  rw [List.map_append, selPair_addToCursorsAux, ← List.map_append,
    List.take_append_drop]

theorem selPair_insert_text_no_lf (t : Tab) (c : Nat) (p : List Char) :
    (t.insert_text_no_lf c p).cursors.map selPair = t.cursors.map selPair := by
  unfold Tab.insert_text_no_lf
  exact selPair_add_to_cursors _ _ _ _

theorem selPair_line_feed (t : Tab) (c : Nat) (cr : Bool) :
    (t.line_feed c cr).cursors.map selPair = t.cursors.map selPair := by
  unfold Tab.line_feed
  exact selPair_add_to_cursors _ _ _ _

theorem selPair_insertPartsAux (c : Nat) (ps : List (List Char)) :
    ∀ (t : Tab) (cr : Bool),
      (insertPartsAux c t cr ps).1.cursors.map selPair = t.cursors.map selPair := by
  induction ps with
  | nil => intro t cr; rfl
  | cons p rest ih =>
    intro t cr
    unfold insertPartsAux
    rw [ih, selPair_insert_text_no_lf, selPair_line_feed]

theorem selPair_insert_text_cursor (t : Tab) (c : Nat) (x : List Char) :
    (t.insert_text_cursor c x).cursors.map selPair = t.cursors.map selPair := by
  unfold Tab.insert_text_cursor
  cases splitLf x with
  | nil => rfl
  | cons p ps =>
    dsimp only
    split
    · rw [selPair_insert_text_no_lf, selPair_insertPartsAux, selPair_insert_text_no_lf]
    · rw [selPair_insertPartsAux, selPair_insert_text_no_lf]

theorem hasSel_eq_of_selPair (s t : Tab)
    (h : s.cursors.map selPair = t.cursors.map selPair) :
    s.has_selections = t.has_selections := by
  have key : ∀ (l : List Cursor),
      l.any Cursor.selects = (l.map selPair).any (fun p => p.1 ≠ 0 || p.2 ≠ 0) := by
    intro l
    induction l with
    | nil => rfl
    | cons cu rest ih => simp [Cursor.selects, selPair, ih]
  unfold Tab.has_selections
  rw [key, key, h]

theorem erase_selection_noop (t : Tab) (h : t.has_selections = false) :
    t.erase_selection = (t, false) := by
  unfold Tab.erase_selection
  rw [h]
  rfl

theorem insert_text_state (t : Tab) (x : List Char) (h : t.has_selections = false) :
    (t.insert_text x).history = (t.log .insertion).history
    ∧ (t.insert_text x).cursors.map selPair = t.cursors.map selPair := by
  unfold Tab.insert_text Tab.prepare_insertion
  dsimp only
  have hsel1 : (t.log .insertion).has_selections = false := by
    unfold Tab.has_selections
    rw [cursors_log]
    exact h
  rw [erase_selection_noop _ hsel1]
  dsimp only
  have base : (t.log .insertion).cursors.map selPair = t.cursors.map selPair := by
    rw [cursors_log]
  have step : ∀ (u : Tab) (c : Nat),
      (u.history = (t.log .insertion).history
        ∧ u.cursors.map selPair = t.cursors.map selPair) →
      ((u.insert_text_cursor c x).history = (t.log .insertion).history
        ∧ (u.insert_text_cursor c x).cursors.map selPair = t.cursors.map selPair) := by
    intro u c hu
    exact ⟨by rw [hist_insert_text_cursor]; exact hu.1,
      by rw [selPair_insert_text_cursor]; exact hu.2⟩
  have := foldl_preserve
    (fun u => u.history = (t.log .insertion).history
      ∧ u.cursors.map selPair = t.cursors.map selPair)
    (fun acc c => acc.insert_text_cursor c x) step
    (List.range (t.log .insertion).cursors.length) (t.log .insertion) ⟨rfl, base⟩
  exact this

theorem insert_keeps_insertion_top (l : Nat) (u : Tab) (x : List Char)
    (h1 : u.history.len = some (l + 1))
    (h2 : ∃ s, u.history.inner.get? l = some s ∧ s.before = Edition.insertion)
    (h3 : u.has_selections = false) :
    (u.insert_text x).history = u.history
    ∧ (u.insert_text x).has_selections = false := by
  obtain ⟨s, hs, hb⟩ := h2
  have hlog : u.log .insertion = u := log_same_kind u .insertion l s h1 hs hb
  have hstate := insert_text_state u x h3
  refine ⟨by rw [hstate.1, hlog], ?_⟩
  rw [hasSel_eq_of_selPair _ u hstate.2]
  exact h3

/-- C5.  Behavior of the history hook `log`: (1) while history is
inactive it records nothing; (2) when the most recent active entry has
the same kind it records nothing; (3) otherwise it discards the
entries beyond the logical length, appends a snapshot of the current
state tagged with the kind, bumps the logical length and clears the
pending redo snapshot.  Consequently (4): from a selection-free state
whose most recent active entry is not an insertion, any non-empty run
of consecutive `insert_text` calls grows the history by exactly one
snapshot, and a following `backspace_once` (deletion) starts exactly
one further step. -/
theorem log_coalescing :
    (∀ (t : Tab) (k : Edition), t.history.len = none → t.log k = t)
    ∧ (∀ (t : Tab) (k : Edition) (i : Nat) (s : Snapshot),
        t.history.len = some (i + 1) → t.history.inner.get? i = some s →
        s.before = k → t.log k = t)
    ∧ (∀ (t : Tab) (k : Edition) (l : Nat),
        t.history.len = some l →
        (l = 0 ∨ ∃ s, t.history.inner.get? (l - 1) = some s ∧ s.before ≠ k) →
        (t.log k).history.inner = t.history.inner.take l ++ [⟨t.raw_snapshot, k⟩]
        ∧ (t.log k).history.len = some (l + 1)
        ∧ (t.log k).history.pre_undo = none)
    ∧ (∀ (t : Tab) (l : Nat) (x0 : List Char) (texts : List (List Char)) (fwd : Bool),
        t.history.len = some l → l ≤ t.history.inner.length →
        t.has_selections = false →
        (l = 0 ∨ ∃ s, t.history.inner.get? (l - 1) = some s
          ∧ s.before = Edition.deletion) →
        ((x0 :: texts).foldl Tab.insert_text t).history.inner.length = l + 1
        ∧ ((x0 :: texts).foldl Tab.insert_text t).history.len = some (l + 1)
        ∧ (((x0 :: texts).foldl Tab.insert_text t).backspace_once fwd).history.inner.length
          = l + 2
        ∧ (((x0 :: texts).foldl Tab.insert_text t).backspace_once fwd).history.len
          = some (l + 2)) := by
  refine ⟨log_inactive, log_same_kind, ?_, ?_⟩
  · intro t k l h1 h2
    rw [log_records t k l h1 h2]
    exact ⟨rfl, rfl, rfl⟩
  · intro t l x0 texts fwd h1 h1b h2 h3
    simp only [List.foldl_cons]
    -- the first insertion records one snapshot of the pre-state
    have h3' : l = 0 ∨ ∃ s, t.history.inner.get? (l - 1) = some s
        ∧ s.before ≠ Edition.insertion := by
      rcases h3 with h0 | ⟨s, hs, hb⟩
      · exact Or.inl h0
      · exact Or.inr ⟨s, hs, by rw [hb]; intro e; cases e⟩
    have hrec := log_records t .insertion l h1 h3'
    have hlen_take : (t.history.inner.take l).length = l := by
      simpa using h1b
    -- the history value shared by every later state of the run
    have hstate0 := insert_text_state t x0 h2
    have hH : (t.insert_text x0).history
        = ⟨none, t.history.inner.take l ++ [⟨t.raw_snapshot, .insertion⟩], some (l + 1)⟩ := by
      rw [hstate0.1, hrec]
    have hsel0 : (t.insert_text x0).has_selections = false := by
      rw [hasSel_eq_of_selPair _ t hstate0.2]
      exact h2
    have hget : ∀ (u : Tab), u.history
          = ⟨none, t.history.inner.take l ++ [⟨t.raw_snapshot, .insertion⟩], some (l + 1)⟩ →
        ∃ s, u.history.inner.get? l = some s ∧ s.before = Edition.insertion := by
      intro u hu
      refine ⟨⟨t.raw_snapshot, .insertion⟩, ?_, rfl⟩
      rw [hu]
      dsimp only
      rw [List.get?_eq_getElem?, List.getElem?_append_right (by omega)]
      simp [hlen_take]
    have main : ∀ (ts : List (List Char)) (u : Tab),
        (u.history = ⟨none, t.history.inner.take l ++ [⟨t.raw_snapshot, .insertion⟩],
            some (l + 1)⟩
          ∧ u.has_selections = false) →
        ((ts.foldl Tab.insert_text u).history
            = ⟨none, t.history.inner.take l ++ [⟨t.raw_snapshot, .insertion⟩], some (l + 1)⟩
          ∧ (ts.foldl Tab.insert_text u).has_selections = false) := by
      intro ts
      induction ts with
      | nil => intro u hu; exact hu
      | cons a rest ih =>
        intro u hu
        refine ih _ ?_
        have hk := insert_keeps_insertion_top l u a (by rw [hu.1]) (hget u hu.1) hu.2
        exact ⟨by rw [hk.1]; exact hu.1, hk.2⟩
    have hu := main texts (t.insert_text x0) ⟨hH, hsel0⟩
    set u := texts.foldl Tab.insert_text (t.insert_text x0) with hu_def
    have hulen : u.history.inner.length = l + 1 := by
      rw [hu.1]
      simp [hlen_take]
    have hulen2 : u.history.len = some (l + 1) := by rw [hu.1]
    -- the interposed deletion records one further snapshot
    have hdel : u.log .deletion = { u with history :=
        ⟨none, u.history.inner.take (l + 1) ++ [⟨u.raw_snapshot, .deletion⟩],
          some (l + 2)⟩ } := by
      refine log_records u .deletion (l + 1) hulen2 (Or.inr ?_)
      obtain ⟨s, hs, hb⟩ := hget u hu.1
      exact ⟨s, by simpa using hs, by rw [hb]; intro e; cases e⟩
    have htake : u.history.inner.take (l + 1) = u.history.inner :=
      List.take_of_length_le (by omega)
    have hbs : (u.backspace_once fwd).history = (u.log .deletion).history := by
      unfold Tab.backspace_once
      rw [erase_selection_noop u hu.2]
      dsimp only
      have hfold : ∀ (ll : List Nat) (w : Tab),
          w.history = (u.log .deletion).history →
          (ll.foldl (fun acc c => acc.backspace c 1) w).history
            = (u.log .deletion).history := by
        intro ll
        induction ll with
        | nil => intro w hw; exact hw
        | cons a rest ih =>
          intro w hw
          exact ih _ (by rw [hist_backspace]; exact hw)
      cases fwd with
      | false =>
        rw [if_neg (by decide)]
        exact hfold _ _ rfl
      | true =>
        rw [if_pos rfl]
        refine hfold _ _ ?_
        rw [hist_horizontal_jump]
        rfl
    refine ⟨hulen, hulen2, ?_, ?_⟩
    · rw [hbs, hdel]
      simp only
      rw [htake]
      simp [hulen]
    · rw [hbs, hdel]

/-- C5, witness: an empty active history, one typed character, one
backspace. -/
theorem log_coalescing_witness :
    (inactiveTab.history.len = none ∧ inactiveTab.log .insertion = inactiveTab)
    ∧ (fooTab.history.len = some 0 ∧ fooTab.has_selections = false
      ∧ (([("a".toList)]).foldl Tab.insert_text fooTab).history.inner.length = 1
      ∧ (Tab.backspace_once (([("a".toList)]).foldl Tab.insert_text fooTab) false).history.inner.length = 2) := by
  refine ⟨⟨by decide, log_coalescing.1 inactiveTab .insertion (by decide)⟩,
    by decide, by decide, ?_, ?_⟩
  · exact (log_coalescing.2.2.2 fooTab 0 ("a".toList) [] false (by decide) (by decide)
      (by decide) (Or.inl rfl)).1
  · exact (log_coalescing.2.2.2 fooTab 0 ("a".toList) [] false (by decide) (by decide)
      (by decide) (Or.inl rfl)).2.2.1

theorem utf8Len_pos (c : Char) : 1 ≤ utf8Len c := by
  unfold utf8Len
  split_ifs <;> omega

theorem length_le_byteLen (l : List Char) : l.length ≤ byteLen l := by
  induction l with
  | nil => simp [byteLen]
  | cons c rest ih =>
    have := utf8Len_pos c
    simp only [byteLen, List.map_cons, List.sum_cons, List.length_cons]
    simp only [byteLen] at ih
    omega

theorem splitLf_ne_nil (t : List Char) : splitLf t ≠ [] := by
  cases t with
  | nil => simp [splitLf]
  | cons c rest =>
    unfold splitLf
    by_cases h : c = '\n'
    · simp [h]
    · simp only [if_neg h]
      cases hs : splitLf rest <;> simp

theorem joinLf_splitLf (t : List Char) : joinLf (splitLf t) = t := by
  induction t with
  | nil => rfl
  | cons c rest ih =>
    unfold splitLf
    by_cases h : c = '\n'
    · rw [if_pos h]
      cases hs : splitLf rest with
      | nil => exact absurd hs (splitLf_ne_nil rest)
      | cons p ps =>
        rw [hs] at ih
        show '\n' :: joinLf (p :: ps) = c :: rest
        rw [ih, h]
    · rw [if_neg h]
      cases hs : splitLf rest with
      | nil => exact absurd hs (splitLf_ne_nil rest)
      | cons p ps =>
        rw [hs] at ih
        cases ps with
        | nil =>
          show c :: p = c :: rest
          have : p = rest := ih
          rw [this]
        | cons q qs =>
          show (c :: p) ++ '\n' :: joinLf (q :: qs) = c :: rest
          have : p ++ '\n' :: joinLf (q :: qs) = rest := ih
          simpa using this

theorem strip_cr_spec (p : List Char) :
    (strip_cr p).1 ++ crStr (strip_cr p).2 = p := by
  unfold strip_cr
  split
  · rename_i heq
    have hne : p ≠ [] := by
      intro e
      rw [e] at heq
      cases heq
    have hl : p.getLast hne = '\r' := by
      have h2 := List.getLast?_eq_getLast p hne
      rw [heq] at h2
      exact (Option.some_inj.mp h2).symm
    show p.dropLast ++ crStr true = p
    rw [show crStr true = ['\r'] from rfl]
    conv_rhs => rw [← List.dropLast_append_getLast hne]
    rw [hl]
  · simp [crStr]

theorem buildLines_feedParts (ps : List (List Char)) :
    ∀ (buf : List Char) (cr : Bool),
      buildLines buf cr ps
        = (feedParts buf cr ps).1
          ++ [⟨(feedParts buf cr ps).2.1 ++ crStr (feedParts buf cr ps).2.2, false⟩] := by
  induction ps with
  | nil => intro buf cr; rfl
  | cons p rest ih =>
    intro buf cr
    show Line.mk buf cr :: buildLines (strip_cr p).1 (strip_cr p).2 rest = _
    rw [ih]
    rfl

theorem rebuildAux_buildLines (ps : List (List Char)) :
    ∀ (buf : List Char) (cr : Bool),
      rebuildAux (buildLines buf cr ps) = buf ++ crStr cr ++ joinTail ps := by
  induction ps with
  | nil =>
    intro buf cr
    show rebuildAux [⟨buf ++ crStr cr, false⟩] = _
    simp [rebuildAux, crStr, joinTail]
  | cons p rest ih =>
    intro buf cr
    show rebuildAux (⟨buf, cr⟩ :: buildLines (strip_cr p).1 (strip_cr p).2 rest) = _
    have step : rebuildAux (⟨buf, cr⟩ :: buildLines (strip_cr p).1 (strip_cr p).2 rest)
        = buf ++ crStr cr
          ++ '\n' :: rebuildAux (buildLines (strip_cr p).1 (strip_cr p).2 rest) := by
      simp [rebuildAux]
    rw [step, ih]
    simp only [joinTail]
    rw [strip_cr_spec]

theorem joinTail_joinLf (ps : List (List Char)) :
    ∀ (p : List Char), p ++ joinTail ps = joinLf (p :: ps) ++ ['\n'] := by
  induction ps with
  | nil => intro p; rfl
  | cons q qs ih =>
    intro p
    show p ++ '\n' :: (q ++ joinTail qs) = (p ++ '\n' :: joinLf (q :: qs)) ++ ['\n']
    rw [ih q]
    simp

theorem buildLines_ne_nil (buf : List Char) (cr : Bool) (ps : List (List Char)) :
    buildLines buf cr ps ≠ [] := by
  cases ps <;> simp [buildLines]

theorem rebuildText_parseFrom_nil (text : List Char) :
    rebuildText (parseFrom [] text) = text := by
  unfold parseFrom
  cases hs : splitLf text with
  | nil => exact absurd hs (splitLf_ne_nil text)
  | cons p ps =>
    dsimp only
    have hne := buildLines_ne_nil ([] ++ (strip_cr p).1) (strip_cr p).2 ps
    unfold rebuildText
    have hie : (buildLines ([] ++ (strip_cr p).1) (strip_cr p).2 ps).isEmpty = false := by
      cases hb : buildLines ([] ++ (strip_cr p).1) (strip_cr p).2 ps with
      | nil => exact absurd hb hne
      | cons a b => rfl
    rw [hie]
    simp only [Bool.false_eq_true, if_false]
    rw [rebuildAux_buildLines]
    have h1 : [] ++ (strip_cr p).1 ++ crStr (strip_cr p).2 ++ joinTail ps
        = p ++ joinTail ps := by
      rw [List.nil_append, strip_cr_spec]
    rw [h1, joinTail_joinLf, List.dropLast_concat, ← hs, joinLf_splitLf]

theorem updateAt_append_at_length (ls : List α) (a : α) (f : α → α) :
    updateAt (ls ++ [a]) ls.length f = ls ++ [f a] := by
  induction ls with
  | nil => rfl
  | cons b rest ih => simp [updateAt, ih]

theorem insertAt_at_length (l : List α) (a : α) : insertAt l l.length a = l ++ [a] := by
  unfold insertAt
  rw [List.take_length, List.drop_length]

theorem insert_text_no_lf_end (t : Tab) (ls : List Line) (buf p : List Char) (cu : Cursor)
    (hl : t.lines = ls ++ [⟨buf, false⟩]) (hc : t.cursors = [cu])
    (hy : cu.y = ls.length) (hx : buf.length ≤ cu.x) :
    (t.insert_text_no_lf 0 p).lines = ls ++ [⟨buf ++ p, false⟩]
    ∧ (t.insert_text_no_lf 0 p).cursors = [{ cu with x := cu.x + byteLen p }] := by
  have hcu : t.cursor 0 = cu := by
    unfold Tab.cursor
    rw [hc]
    rfl
  unfold Tab.insert_text_no_lf Tab.add_to_cursors
  dsimp only
  rw [hcu]
  constructor
  · show updateAt t.lines cu.y _ = _
    rw [hl, hy, updateAt_append_at_length]
    have h1 : buf.take cu.x = buf := List.take_of_length_le hx
    have h2 : buf.drop cu.x = [] := List.drop_eq_nil_of_le hx
    simp [h1, h2]
  · show List.take 0 _ ++ addToCursorsAux false _ _ (List.drop 0 _) = _
    rw [Tab.cursor, hc]
    show addToCursorsAux false cu.y (byteLen p) [cu] = _
    unfold addToCursorsAux
    rw [if_neg (by simp), if_pos rfl]
    rfl

theorem line_feed_end (t : Tab) (ls : List Line) (buf : List Char) (cu : Cursor) (cr : Bool)
    (hl : t.lines = ls ++ [⟨buf, false⟩]) (hc : t.cursors = [cu])
    (hy : cu.y = ls.length) (hx : buf.length ≤ cu.x) :
    (t.line_feed 0 cr).lines = (ls ++ [⟨buf, cr⟩]) ++ [⟨[], false⟩]
    ∧ (t.line_feed 0 cr).cursors = [{ cu with x := 0, y := cu.y + 1 }] := by
  have hcu : t.cursor 0 = cu := by
    unfold Tab.cursor
    rw [hc]
    rfl
  have hline : t.line cu.y = ⟨buf, false⟩ := by
    unfold Tab.line
    rw [hl, hy]
    simp
  unfold Tab.line_feed Tab.add_to_cursors
  dsimp only
  rw [hcu, hline]
  constructor
  · show insertAt (updateAt t.lines cu.y _) (cu.y + 1) _ = _
    rw [hl, hy, updateAt_append_at_length]
    have h1 : buf.take cu.x = buf := List.take_of_length_le hx
    have h2 : buf.drop cu.x = [] := List.drop_eq_nil_of_le hx
    dsimp only
    rw [h1, h2]
    have hlen : (ls ++ [Line.mk buf cr]).length = ls.length + 1 := by simp
    rw [show ls.length + 1 = (ls ++ [Line.mk buf cr]).length from hlen.symm,
      insertAt_at_length]
  · show List.take 0 _ ++ addToCursorsAux true _ 0 (List.drop 0 _) = _
    rw [Tab.cursor, hc]
    show addToCursorsAux true cu.y 0 [cu] = _
    unfold addToCursorsAux
    rw [if_pos rfl]
    simp [addToCursorsAux]

theorem insertPartsAux_end (ps : List (List Char)) :
    ∀ (t : Tab) (ls : List Line) (buf : List Char) (cu : Cursor) (cr : Bool),
      t.lines = ls ++ [⟨buf, false⟩] → t.cursors = [cu] → cu.y = ls.length →
      buf.length ≤ cu.x →
      ∃ cu2 : Cursor,
        (insertPartsAux 0 t cr ps).1.lines
          = ls ++ (feedParts buf cr ps).1 ++ [⟨(feedParts buf cr ps).2.1, false⟩]
        ∧ (insertPartsAux 0 t cr ps).2 = (feedParts buf cr ps).2.2
        ∧ (insertPartsAux 0 t cr ps).1.cursors = [cu2]
        ∧ cu2.y = ls.length + (feedParts buf cr ps).1.length
        ∧ (feedParts buf cr ps).2.1.length ≤ cu2.x := by
  induction ps with
  | nil =>
    intro t ls buf cu cr hl hc hy hx
    refine ⟨cu, ?_, rfl, hc, ?_, hx⟩
    · simpa [feedParts] using hl
    · simpa [feedParts] using hy
  | cons p rest ih =>
    intro t ls buf cu cr hl hc hy hx
    have hlf := line_feed_end t ls buf cu cr hl hc hy hx
    have hstep := insert_text_no_lf_end (t.line_feed 0 cr) (ls ++ [⟨buf, cr⟩]) []
      (strip_cr p).1 { cu with x := 0, y := cu.y + 1 }
      (by rw [hlf.1]) hlf.2 (by simp [hy]) (by simp)
    have hx2 : (strip_cr p).1.length ≤ byteLen (strip_cr p).1 :=
      length_le_byteLen _
    obtain ⟨cu2, e1, e2, e3, e4, e5⟩ := ih
      ((t.line_feed 0 cr).insert_text_no_lf 0 (strip_cr p).1)
      (ls ++ [⟨buf, cr⟩]) ((strip_cr p).1)
      { cu with x := 0 + byteLen (strip_cr p).1, y := cu.y + 1 }
      (strip_cr p).2
      (by rw [hstep.1]; simp)
      (by rw [hstep.2])
      (by simp [hy])
      (by simpa using hx2)
    refine ⟨cu2, ?_, ?_, ?_, ?_, ?_⟩
    · show (insertPartsAux 0 (Tab.insert_text_no_lf (t.line_feed 0 cr) 0 (strip_cr p).1)
          (strip_cr p).2 rest).1.lines = _
      rw [e1]
      simp [feedParts]
    · show (insertPartsAux 0 (Tab.insert_text_no_lf (t.line_feed 0 cr) 0 (strip_cr p).1)
          (strip_cr p).2 rest).2 = _
      rw [e2]
      rfl
    · exact e3
    · have hfp : (feedParts buf cr (p :: rest)).1.length
          = (feedParts (strip_cr p).1 (strip_cr p).2 rest).1.length + 1 := by
        simp [feedParts]
      rw [e4, hfp]
      simp only [List.length_append, List.length_cons, List.length_nil]
      omega
    · exact e5

theorem insert_text_cursor_parse (t : Tab) (ls : List Line) (buf : List Char)
    (cu : Cursor) (x : List Char)
    (hl : t.lines = ls ++ [⟨buf, false⟩]) (hc : t.cursors = [cu])
    (hy : cu.y = ls.length) (hx : buf.length ≤ cu.x) :
    (t.insert_text_cursor 0 x).lines = ls ++ parseFrom buf x := by
  unfold Tab.insert_text_cursor parseFrom
  cases hs : splitLf x with
  | nil => exact absurd hs (splitLf_ne_nil x)
  | cons p ps =>
    dsimp only
    have hstep := insert_text_no_lf_end t ls buf (strip_cr p).1 cu hl hc hy hx
    have hx2 : (buf ++ (strip_cr p).1).length ≤ cu.x + byteLen (strip_cr p).1 := by
      have := length_le_byteLen (strip_cr p).1
      simp only [List.length_append]
      omega
    obtain ⟨cu2, e1, e2, e3, e4, e5⟩ := insertPartsAux_end ps
      (t.insert_text_no_lf 0 (strip_cr p).1) ls (buf ++ (strip_cr p).1)
      { cu with x := cu.x + byteLen (strip_cr p).1 } (strip_cr p).2
      hstep.1 hstep.2 hy hx2
    rw [buildLines_feedParts]
    split
    · rename_i hcr
      rw [e2] at hcr
      have hfin := insert_text_no_lf_end
        (insertPartsAux 0 (t.insert_text_no_lf 0 (strip_cr p).1) (strip_cr p).2 ps).1
        (ls ++ (feedParts (buf ++ (strip_cr p).1) (strip_cr p).2 ps).1)
        ((feedParts (buf ++ (strip_cr p).1) (strip_cr p).2 ps).2.1)
        ['\r'] cu2 (by rw [e1]) e3 (by rw [e4]; simp) e5
      rw [hfin.1, hcr]
      simp [crStr]
    · rename_i hcr
      rw [e2] at hcr
      have hcr' : (feedParts (buf ++ (strip_cr p).1) (strip_cr p).2 ps).2.2 = false := by
        cases hb : (feedParts (buf ++ (strip_cr p).1) (strip_cr p).2 ps).2.2 with
        | false => rfl
        | true => exact absurd hb hcr
      rw [e1, hcr']
      simp [crStr]

theorem insert_text_inactive_fresh (t : Tab) (x : List Char)
    (hl : t.lines = [Line.empty]) (hc : t.cursors = [Cursor.new 0])
    (hh : t.history.len = none) :
    (t.insert_text x).lines = parseFrom [] x := by
  unfold Tab.insert_text Tab.prepare_insertion
  dsimp only
  rw [log_inactive t _ hh]
  have hsel : t.has_selections = false := by
    unfold Tab.has_selections
    rw [hc]
    rfl
  rw [erase_selection_noop t hsel]
  dsimp only
  have hlen : t.cursors.length = 1 := by rw [hc]; rfl
  rw [hlen, show List.range 1 = [0] from rfl, List.foldl_cons, List.foldl_nil]
  exact insert_text_cursor_parse t [] [] (Cursor.new 0) x
    (by rw [hl]; rfl) hc rfl (by simp)

theorem restore_snapshot_state (t : Tab) (s : RawSnapshot) :
    (t.restore_snapshot s).lines = parseFrom [] s.buffer
    ∧ (t.restore_snapshot s).cursors = s.cursors := by
  unfold Tab.restore_snapshot
  dsimp only
  refine ⟨?_, rfl⟩
  exact insert_text_inactive_fresh _ s.buffer rfl rfl rfl

theorem hist_eraseSelLoop (a : Nat) : ∀ (fl : Nat) (v : Tab),
    (v.eraseSelLoop a fl).history = v.history := by
  intro fl
  induction fl with
  | zero => intro v; rfl
  | succ m ih =>
    intro v
    unfold Tab.eraseSelLoop
    dsimp only
    split
    · rfl
    · rw [ih]
      show (Tab.backspace _ _ _).history = v.history
      rw [hist_backspace]

theorem hist_eraseSelCursor (v : Tab) (a : Nat) :
    (v.eraseSelCursor a).history = v.history := by
  unfold Tab.eraseSelCursor
  dsimp only
  rw [hist_backspace]
  show (Tab.eraseSelLoop _ _ _).history = v.history
  rw [hist_eraseSelLoop]

theorem hist_insert_text_inactive (u : Tab) (y : List Char)
    (hu : u.history.len = none) : (u.insert_text y).history = u.history := by
  unfold Tab.insert_text Tab.prepare_insertion
  dsimp only
  rw [log_inactive u _ hu]
  have he : (u.erase_selection).1.history = u.history := by
    unfold Tab.erase_selection
    split
    · rfl
    · dsimp only
      have hind : ∀ (ll : List Nat) (w : Tab), w.history = u.history →
          (ll.foldl Tab.eraseSelCursor w).history = u.history := by
        intro ll
        induction ll with
        | nil => intro w hw; exact hw
        | cons a rest ih =>
          intro w hw
          refine ih _ ?_
          rw [hist_eraseSelCursor]
          exact hw
      refine hind _ _ ?_
      unfold Tab.prepare_deletion
      rw [log_inactive u _ hu]
  have hf : ∀ (ll : List Nat) (w : Tab), w.history = u.history →
      (ll.foldl (fun acc c => acc.insert_text_cursor c y) w).history = u.history := by
    intro ll
    induction ll with
    | nil => intro w hw; exact hw
    | cons a rest ih =>
      intro w hw
      refine ih _ ?_
      rw [hist_insert_text_cursor]
      exact hw
  exact hf _ _ he

theorem pre_undo_restore (v : Tab) (s : RawSnapshot) :
    (v.restore_snapshot s).history.pre_undo = v.history.pre_undo := by
  unfold Tab.restore_snapshot
  dsimp only
  rw [hist_insert_text_inactive _ _ rfl]

/-- C4.  Amended undo/redo round-trip: when history is active with at
least one logged snapshot **and no redo snapshot is pending** (no undo
has happened since the last recorded edit), `undo(); redo()` restores
exactly the pre-undo document text and cursor set: the first undo of a
chain stashes the current state, and redo replays that stash through
the same insertion path, which reproduces the text (`rebuildText` of
the parse is the identity) and installs the stashed cursors verbatim.
With a pending redo snapshot the property fails, see the
counterexample. -/
theorem undo_redo_roundtrip (t : Tab) (n : Nat)
    (h1 : t.history.len = some (n + 1)) (h2 : t.history.pre_undo = none) :
    rebuildText ((t.undo.redo).lines) = rebuildText t.lines
    ∧ (t.undo.redo).cursors = t.cursors := by
  unfold Tab.undo
  rw [h1]
  dsimp only
  rw [if_pos h2]
  unfold Tab.redo
  set t1 : Tab := { t with history := { t.history with pre_undo := some t.raw_snapshot } }
    with ht1
  set snap := (t1.history.inner.getD n ⟨default, .insertion⟩).raw with hsnap
  have hsc : History.pre_undo (Tab.history { t1.restore_snapshot snap with
      history := { (t1.restore_snapshot snap).history with len := some n } })
      = some t.raw_snapshot :=
    pre_undo_restore t1 snap
  rw [hsc]
  dsimp only
  constructor
  · rw [(restore_snapshot_state _ t.raw_snapshot).1]
    exact rebuildText_parseFrom_nil _
  · rw [(restore_snapshot_state _ t.raw_snapshot).2]
    rfl

theorem addSignedClamp_neg (x n : Nat) : addSignedClamp x (-(n : Int)) = x - n := by
  unfold addSignedClamp
  omega

theorem tab_string_log (t : Tab) (e : Edition) : (t.log e).tab_string = t.tab_string := by
  unfold Tab.log
  cases t.history.len with
  | none => rfl
  | some len => dsimp only; split <;> rfl

theorem updateAt_append_cons (ls : List α) (b : α) (rest : List α) (f : α → α) :
    updateAt (ls ++ b :: rest) ls.length f = ls ++ f b :: rest := by
  induction ls with
  | nil => rfl
  | cons a tl ih => simp [updateAt, ih]

theorem getD_at_length (ls : List α) (b : α) (rest : List α) (d : α) :
    (ls ++ b :: rest).getD ls.length d = b := by
  induction ls with
  | nil => rfl
  | cons a tl ih => simpa using ih

theorem eraseIdx_append_succ (ls : List α) (b c : α) (rest : List α) :
    (ls ++ b :: c :: rest).eraseIdx (ls.length + 1) = ls ++ b :: rest := by
  induction ls with
  | nil => rfl
  | cons a tl ih => simpa [List.eraseIdx] using ih

theorem backspace_one_no_merge (t : Tab) (cu : Cursor) (i : Nat)
    (hc : t.cursors = [cu]) (hx : cu.x = i + 1) :
    (t.backspace 0 1).lines
      = updateAt t.lines cu.y
          (cutAt (if t.tab_string.isSuffixOf ((t.line cu.y).buffer.take cu.x)
            then t.tab_string.length else 1) cu.x)
    ∧ (t.backspace 0 1).cursors
      = [{ cu with x := cu.x
          - (if t.tab_string.isSuffixOf ((t.line cu.y).buffer.take cu.x)
            then t.tab_string.length else 1) }] := by
  have hcu : t.cursor 0 = cu := by
    unfold Tab.cursor
    rw [hc]
    rfl
  have hm : t.mergeLoop 0 1 = (t, 1) := by
    have hnlt : ¬ (cu.x < 0 + 1) := by omega
    unfold Tab.mergeLoop
    rw [hcu, if_neg hnlt]
  unfold Tab.backspace
  rw [hm]
  dsimp only
  have hne : ¬ ((1 : Nat) = 0) := by omega
  rw [if_neg hne, hcu]
  have hsimple : (decide (1 = 1) && t.tab_string.isSuffixOf ((t.line cu.y).buffer.take cu.x))
      = t.tab_string.isSuffixOf ((t.line cu.y).buffer.take cu.x) := by
    simp
  rw [hsimple]
  constructor
  · rfl
  · show List.take 0 _ ++ backspaceCursorAux false _ _ (List.drop 0 _) = _
    rw [Tab.cursor, hc]
    show backspaceCursorAux false cu.y _ [cu] = _
    unfold backspaceCursorAux
    rw [if_pos rfl]
    rw [addSignedClamp_neg]
    rfl

theorem backspace_one_merge (t : Tab) (cu : Cursor) (ls rest : List Line) (P C : Line)
    (hl : t.lines = ls ++ P :: C :: rest) (hc : t.cursors = [cu])
    (hx : cu.x = 0) (hy : cu.y = ls.length + 1) :
    (t.backspace 0 1).lines = ls ++ { P with buffer := P.buffer ++ C.buffer } :: rest
    ∧ (t.backspace 0 1).cursors = [{ cu with x := P.buffer.length, y := ls.length }] := by
  have hcu : t.cursor 0 = cu := by
    unfold Tab.cursor
    rw [hc]
    rfl
  have hmerge : t.merge_with_prev_line 0 (ls.length + 1) ls.length
      = { t with
          lines := ls ++ { P with buffer := P.buffer ++ C.buffer } :: rest,
          cursors := [{ cu with x := P.buffer.length, y := ls.length }] } := by
    unfold Tab.merge_with_prev_line Tab.backspace_cursor
    dsimp only
    have hline : t.line (ls.length + 1) = C := by
      unfold Tab.line
      rw [hl]
      have : ls.length + 1 = (ls ++ [P]).length := by simp
      rw [this, show ls ++ P :: C :: rest = (ls ++ [P]) ++ C :: rest by simp,
        getD_at_length]
    have herase : t.lines.eraseIdx (ls.length + 1) = ls ++ P :: rest := by
      rw [hl, eraseIdx_append_succ]
    rw [hline, herase, getD_at_length, updateAt_append_cons]
    have hcur2 : Tab.cursor { t with lines := ls ++ { P with buffer := P.buffer ++ C.buffer } :: rest } 0 = cu := by
      unfold Tab.cursor
      rw [hc]
      rfl
    rw [hcur2, hc]
    show _ = _
    have hclamp : addSignedClamp cu.x (Line.len_chars P : Int) = P.buffer.length := by
      unfold addSignedClamp Line.len_chars
      omega
    have haux : backspaceCursorAux true cu.y (Line.len_chars P : Int) [cu]
        = [{ cu with x := P.buffer.length, y := ls.length }] := by
      unfold backspaceCursorAux
      rw [if_pos rfl]
      dsimp only
      rw [if_pos rfl]
      simp [hclamp, hy, backspaceCursorAux]
    simp only [List.take_zero, List.drop_zero, List.nil_append]
    rw [haux]
  have hml : t.mergeLoop 0 1
      = ({ t with
          lines := ls ++ { P with buffer := P.buffer ++ C.buffer } :: rest,
          cursors := [{ cu with x := P.buffer.length, y := ls.length }] }, 0) := by
    have hlt : cu.x < 0 + 1 := by omega
    unfold Tab.mergeLoop
    rw [hcu, if_pos hlt, hy]
    dsimp only
    rw [hmerge]
    rfl
  unfold Tab.backspace
  rw [hml]
  dsimp only
  rw [if_pos rfl]
  exact ⟨rfl, rfl⟩

theorem backspace_one_origin (t : Tab) (cu : Cursor)
    (hc : t.cursors = [cu]) (hx : cu.x = 0) (hy : cu.y = 0) :
    t.backspace 0 1 = t := by
  have hcu : t.cursor 0 = cu := by
    unfold Tab.cursor
    rw [hc]
    rfl
  have hml : t.mergeLoop 0 1 = (t, 0) := by
    have hlt : cu.x < 0 + 1 := by omega
    unfold Tab.mergeLoop
    rw [hcu, if_pos hlt, hy]
    rfl
  unfold Tab.backspace
  rw [hml]
  dsimp only
  rw [if_pos rfl]

theorem backspace_once_single_shape (t : Tab) (cu : Cursor)
    (hc : t.cursors = [cu]) (hsel : cu.selects = false) :
    t.backspace_once false = { (t.prepare_deletion).backspace 0 1 with modified := true } := by
  have hs : t.has_selections = false := by
    unfold Tab.has_selections
    rw [hc]
    simpa using hsel
  unfold Tab.backspace_once
  rw [erase_selection_noop t hs]
  dsimp only
  have hif : (if (false = true) then (t.prepare_deletion).horizontal_jump 1 false
      else t.prepare_deletion) = t.prepare_deletion := rfl
  rw [hif]
  have hlen : (t.prepare_deletion).cursors.length = 1 := by
    unfold Tab.prepare_deletion
    rw [cursors_log, hc]
    rfl
  rw [hlen, show List.range 1 = [0] from rfl, List.foldl_cons, List.foldl_nil]
  rfl

/-- C4, witness: a fresh tab with one typed character has an active
history of length 1 and no pending redo snapshot. -/
theorem undo_redo_roundtrip_witness :
    (fooTab.insert_text ("a".toList)).history.len = some 1
    ∧ (fooTab.insert_text ("a".toList)).history.pre_undo = none
    ∧ (rebuildText ((((fooTab.insert_text ("a".toList)).undo).redo).lines)
        = rebuildText (fooTab.insert_text ("a".toList)).lines
      ∧ (((fooTab.insert_text ("a".toList)).undo).redo).cursors
        = (fooTab.insert_text ("a".toList)).cursors) :=
  ⟨by decide, by decide,
    undo_redo_roundtrip (fooTab.insert_text ("a".toList)) 0 (by decide) (by decide)⟩

/-- C10, witness: the `"foo"` document. -/
theorem lines_never_empty_witness :
    fooTab.lines ≠ []
    ∧ ((Tab.new ("a".toList) ("  ".toList)).lines ≠ []
      ∧ (fooTab.insert_text ("a".toList)).lines ≠ []
      ∧ (fooTab.backspace_once false).lines ≠ []
      ∧ (fooTab.erase_selection).1.lines ≠ []
      ∧ (fooTab.undo).lines ≠ []
      ∧ (fooTab.redo).lines ≠ []
      ∧ (fooTab.horizontal_jump 1 false).lines ≠ []
      ∧ (fooTab.find_all ("a".toList)).lines ≠ []
      ∧ (fooTab.paste ("a".toList)).lines ≠ []) :=
  ⟨by decide, lines_never_empty fooTab ("a".toList) ("  ".toList) false false 1 (by decide)⟩

/-! ### Splice normal forms (towards claim C6) -/

theorem spliceBuf_nil (x : Nat) (s : List Char) : spliceBuf x s [] = s := by
  simp [spliceBuf]

theorem spliceBuf_zero (s b : List Char) : spliceBuf 0 s b = s ++ b := by
  simp [spliceBuf]

theorem spliceBuf_cons (x : Nat) (s : List Char) (c : Char) (b : List Char) :
    spliceBuf (x + 1) s (c :: b) = c :: spliceBuf x s b := by
  simp [spliceBuf]

theorem spliceBuf_append_left (a : List Char) (x : Nat) (s b : List Char) :
    spliceBuf (a.length + x) s (a ++ b) = a ++ spliceBuf x s b := by
  induction a with
  | nil => simp
  | cons c a ih =>
    have h : (c :: a).length + x = (a.length + x) + 1 := by
      simp only [List.length_cons]
      omega
    rw [h, List.cons_append, spliceBuf_cons, ih, List.cons_append]

theorem spliceBuf_ge (x : Nat) (s b : List Char) (h : b.length ≤ x) :
    spliceBuf x s b = b ++ s := by
  induction b generalizing x with
  | nil => simp [spliceBuf]
  | cons c b ih =>
    cases x with
    | zero => simp at h
    | succ x =>
      rw [spliceBuf_cons, ih x (by simpa using h)]
      rfl

theorem spliceBuf_length (x : Nat) (s b : List Char) :
    (spliceBuf x s b).length = b.length + s.length := by
  induction b generalizing x with
  | nil => simp [spliceBuf]
  | cons c b ih =>
    cases x with
    | zero =>
      rw [spliceBuf_zero]
      simp only [List.length_append, List.length_cons]
      omega
    | succ x =>
      rw [spliceBuf_cons]
      simp only [List.length_cons, ih]
      omega

theorem spliceAppend (x : Nat) (s1 s2 b : List Char) :
    spliceBuf (x + s1.length) s2 (spliceBuf x s1 b) = spliceBuf x (s1 ++ s2) b := by
  induction b generalizing x with
  | nil =>
    simp only [spliceBuf_nil]
    exact spliceBuf_ge _ _ _ (by omega)
  | cons c b ih =>
    cases x with
    | zero =>
      rw [spliceBuf_zero, spliceBuf_zero]
      have h0 : (0 : Nat) + s1.length = s1.length + 0 := by omega
      rw [h0, spliceBuf_append_left, spliceBuf_zero, List.append_assoc]
    | succ x =>
      rw [spliceBuf_cons]
      have h : x + 1 + s1.length = (x + s1.length) + 1 := by omega
      rw [h, spliceBuf_cons, ih, spliceBuf_cons]

theorem spliceCommute (x z : Nat) (s u b : List Char) (hxz : x ≤ z) (hxb : x ≤ b.length) :
    spliceBuf (z + s.length) u (spliceBuf x s b) = spliceBuf x s (spliceBuf z u b) := by
  induction b generalizing x z with
  | nil =>
    have hx : x = 0 := by simpa using hxb
    subst hx
    simp only [spliceBuf_nil, spliceBuf_zero]
    exact spliceBuf_ge _ _ _ (by omega)
  | cons c b ih =>
    cases x with
    | zero =>
      rw [spliceBuf_zero]
      have h0 : z + s.length = s.length + z := by omega
      rw [h0, spliceBuf_append_left, spliceBuf_zero]
    | succ x =>
      cases z with
      | zero => omega
      | succ z =>
        have hx : x ≤ b.length := by simpa using hxb
        rw [spliceBuf_cons, spliceBuf_cons, spliceBuf_cons]
        have h : z + 1 + s.length = (z + s.length) + 1 := by omega
        rw [h, spliceBuf_cons, ih x z (by omega) hx]

theorem deleteOne_zero_cons (c : Char) (b : List Char) : deleteOne 0 (c :: b) = b := by
  simp [deleteOne]

theorem deleteOne_cons (z : Nat) (c : Char) (b : List Char) :
    deleteOne (z + 1) (c :: b) = c :: deleteOne z b := by
  simp [deleteOne]

theorem deleteOne_ge (z : Nat) (b : List Char) (h : b.length ≤ z) :
    deleteOne z b = b := by
  unfold deleteOne
  rw [List.take_of_length_le h, List.drop_eq_nil_of_le (by omega)]
  simp

theorem deleteOne_append_left (a : List Char) (z : Nat) (b : List Char) :
    deleteOne (a.length + z) (a ++ b) = a ++ deleteOne z b := by
  induction a with
  | nil => simp
  | cons c a ih =>
    have h : (c :: a).length + z = (a.length + z) + 1 := by
      simp only [List.length_cons]
      omega
    rw [h, List.cons_append, deleteOne_cons, ih, List.cons_append]

theorem deleteSplice (x : Nat) (s : List Char) (ch : Char) (b : List Char)
    (h : x ≤ b.length) :
    deleteOne (x + s.length) (spliceBuf x (s ++ [ch]) b) = spliceBuf x s b := by
  induction b generalizing x with
  | nil =>
    have hx : x = 0 := by simpa using h
    subst hx
    simp only [spliceBuf_nil]
    have h0 : (0 : Nat) + s.length = s.length + 0 := by omega
    rw [h0, deleteOne_append_left]
    simp [deleteOne]
  | cons c b ih =>
    cases x with
    | zero =>
      rw [spliceBuf_zero, spliceBuf_zero]
      have h0 : (0 : Nat) + s.length = s.length + 0 := by omega
      rw [h0, List.append_assoc, deleteOne_append_left]
      simp [deleteOne]
    | succ x =>
      have hx : x ≤ b.length := by simpa using h
      rw [spliceBuf_cons, spliceBuf_cons]
      have harith : x + 1 + s.length = (x + s.length) + 1 := by omega
      rw [harith, deleteOne_cons, ih x hx]

theorem deleteCommute (x z : Nat) (s b : List Char) (hxz : x ≤ z) (hxb : x ≤ b.length) :
    deleteOne (z + s.length) (spliceBuf x s b) = spliceBuf x s (deleteOne z b) := by
  induction b generalizing x z with
  | nil =>
    have hx : x = 0 := by simpa using hxb
    subst hx
    simp only [spliceBuf_nil, spliceBuf_zero]
    rw [deleteOne_ge _ _ (by omega), deleteOne_ge _ _ (by simp)]
    simp
  | cons c b ih =>
    cases x with
    | zero =>
      rw [spliceBuf_zero]
      have h0 : z + s.length = s.length + z := by omega
      rw [h0, deleteOne_append_left, spliceBuf_zero]
    | succ x =>
      cases z with
      | zero => omega
      | succ z =>
        have hx : x ≤ b.length := by simpa using hxb
        rw [spliceBuf_cons, deleteOne_cons]
        have h : z + 1 + s.length = (z + s.length) + 1 := by omega
        rw [h, deleteOne_cons, ih x z (by omega) hx, spliceBuf_cons]

theorem updateAt_updateAt (l : List α) (i : Nat) (f g : α → α) :
    updateAt (updateAt l i f) i g = updateAt l i (fun a => g (f a)) := by
  induction l generalizing i with
  | nil => rfl
  | cons a l ih =>
    cases i with
    | zero => rfl
    | succ i => simp [updateAt, ih]

theorem updateAt_comm (l : List α) (i j : Nat) (f g : α → α) (h : i ≠ j) :
    updateAt (updateAt l i f) j g = updateAt (updateAt l j g) i f := by
  induction l generalizing i j with
  | nil => rfl
  | cons a l ih =>
    cases i with
    | zero =>
      cases j with
      | zero => exact absurd rfl h
      | succ j => rfl
    | succ i =>
      cases j with
      | zero => rfl
      | succ j => simp [updateAt, ih i j (by omega)]

theorem updateAt_congr (l : List α) (i : Nat) (f g : α → α) (d : α)
    (h : f (l.getD i d) = g (l.getD i d)) : updateAt l i f = updateAt l i g := by
  induction l generalizing i with
  | nil => rfl
  | cons a l ih =>
    cases i with
    | zero =>
      simp only [List.getD] at h
      simp only [updateAt]
      rw [show f a = g a from by simpa using h]
    | succ i =>
      simp only [updateAt]
      rw [ih i (by simpa [List.getD] using h)]

theorem getD_updateAt (l : List α) (i j : Nat) (f : α → α) (d : α) :
    (updateAt l i f).getD j d
      = if i = j ∧ j < l.length then f (l.getD j d) else l.getD j d := by
  induction l generalizing i j with
  | nil => simp [updateAt]
  | cons a l ih =>
    cases i with
    | zero =>
      cases j with
      | zero => simp [updateAt, List.getD]
      | succ j => simp [updateAt, List.getD]
    | succ i =>
      cases j with
      | zero => simp [updateAt, List.getD]
      | succ j =>
        simp only [updateAt, List.getD_cons_succ, ih, List.length_cons]
        by_cases hij : i = j
        · subst hij
          by_cases hl : i < l.length
          · rw [if_pos ⟨rfl, hl⟩, if_pos ⟨rfl, by omega⟩]
          · rw [if_neg (by omega), if_neg (by omega)]
        · rw [if_neg (by omega), if_neg (by omega)]

theorem lineSplice_comp (x : Nat) (s u : List Char) (l : Line) :
    lineSplice (x + s.length) u (lineSplice x s l) = lineSplice x (s ++ u) l := by
  simp [lineSplice, spliceAppend]

theorem lineSplice_commute (x z : Nat) (s u : List Char) (l : Line)
    (hxz : x ≤ z) (hxb : x ≤ l.buffer.length) :
    lineSplice (z + s.length) u (lineSplice x s l) = lineSplice x s (lineSplice z u l) := by
  simp [lineSplice, spliceCommute x z s u l.buffer hxz hxb]

theorem lineCut_splice (x : Nat) (s : List Char) (ch : Char) (l : Line)
    (h : x ≤ l.buffer.length) :
    lineCut (x + s.length) (lineSplice x (s ++ [ch]) l) = lineSplice x s l := by
  simp [lineCut, lineSplice, deleteSplice x s ch l.buffer h]

theorem lineCut_commute (x z : Nat) (s : List Char) (l : Line)
    (hxz : x ≤ z) (hxb : x ≤ l.buffer.length) :
    lineCut (z + s.length) (lineSplice x s l) = lineSplice x s (lineCut z l) := by
  simp [lineCut, lineSplice, deleteCommute x z s l.buffer hxz hxb]

theorem lineSplice_nil_text (x : Nat) (l : Line) : lineSplice x [] l = l := by
  simp [lineSplice, spliceBuf]

theorem insertAll_cons (pr : Cursor × List Char) (ps : List (Cursor × List Char))
    (L : List Line) :
    insertAll (pr :: ps) L = updateAt (insertAll ps L) pr.1.y (lineSplice pr.1.x pr.2) := rfl

theorem insertAll_length (ps : List (Cursor × List Char)) (L : List Line) :
    (insertAll ps L).length = L.length := by
  induction ps with
  | nil => rfl
  | cons pr ps ih => rw [insertAll_cons, updateAt_length, ih]

theorem insertAll_getD_len (ps : List (Cursor × List Char)) (L : List Line) (y : Nat) :
    (L.getD y default).buffer.length ≤ ((insertAll ps L).getD y default).buffer.length := by
  induction ps with
  | nil => exact le_refl _
  | cons pr ps ih =>
    rw [insertAll_cons, getD_updateAt]
    by_cases h : pr.1.y = y ∧ y < (insertAll ps L).length
    · rw [if_pos h]
      refine le_trans ih ?_
      simp only [lineSplice, spliceBuf_length]
      omega
    · rw [if_neg h]
      exact ih

theorem updateAt_of_fix (l : List α) (i : Nat) (f : α → α) (h : ∀ a, f a = a) :
    updateAt l i f = l := by
  induction l generalizing i with
  | nil => rfl
  | cons a l ih =>
    cases i with
    | zero => simp [updateAt, h]
    | succ i => simp [updateAt, ih]

theorem insertAll_empty (ps : List (Cursor × List Char)) (L : List Line)
    (h : ∀ pr ∈ ps, pr.2 = []) : insertAll ps L = L := by
  induction ps with
  | nil => rfl
  | cons pr ps ih =>
    rw [insertAll_cons, ih (fun q hq => h q (by simp [hq]))]
    rw [h pr (by simp)]
    exact updateAt_of_fix _ _ _ (fun a => lineSplice_nil_text _ a)

theorem shiftedFromF_length (f : Nat → Nat) (ps : List (Cursor × List Char)) :
    (shiftedFromF f ps).length = ps.length := by
  induction ps generalizing f with
  | nil => rfl
  | cons pr ps ih =>
    obtain ⟨cu, s⟩ := pr
    simp [shiftedFromF, ih]

theorem accF_cons (f : Nat → Nat) (pr : Cursor × List Char) (ps : List (Cursor × List Char)) :
    accF f (pr :: ps) = accF (bumpF f pr.1.y pr.2.length) ps := rfl

theorem shiftedFromF_append (f : Nat → Nat) (p q : List (Cursor × List Char)) :
    shiftedFromF f (p ++ q) = shiftedFromF f p ++ shiftedFromF (accF f p) q := by
  induction p generalizing f with
  | nil => rfl
  | cons pr p ih =>
    obtain ⟨cu, s⟩ := pr
    simp only [List.cons_append, shiftedFromF, List.append_eq, ih, accF_cons]

theorem accF_eval (ps : List (Cursor × List Char)) (f : Nat → Nat) (y : Nat) :
    accF f ps y = f y + shiftFor y ps := by
  induction ps generalizing f with
  | nil => simp [accF, shiftFor]
  | cons pr ps ih =>
    rw [accF_cons, ih]
    simp only [shiftFor]
    by_cases h : pr.1.y = y
    · subst h
      simp [bumpF]
      omega
    · rw [if_neg h]
      simp only [bumpF]
      rw [if_neg (fun e => h e.symm)]
      omega

theorem shiftedFromF_congr (ps : List (Cursor × List Char)) (f g : Nat → Nat)
    (h : ∀ pr ∈ ps, f pr.1.y = g pr.1.y) : shiftedFromF f ps = shiftedFromF g ps := by
  induction ps generalizing f g with
  | nil => rfl
  | cons pr ps ih =>
    obtain ⟨cu, s⟩ := pr
    have hy : f cu.y = g cu.y := h (cu, s) (by simp)
    simp only [shiftedFromF, hy]
    rw [ih (bumpF f cu.y s.length) (bumpF g cu.y s.length) ?_]
    intro q hq
    have hqy := h q (List.mem_cons_of_mem _ hq)
    simp [bumpF, hqy]

theorem bumpF_bumpF (f : Nat → Nat) (y a b : Nat) :
    bumpF (bumpF f y a) y b = bumpF f y (a + b) := by
  funext z
  by_cases h : z = y
  · subst h
    simp [bumpF]
    omega
  · simp [bumpF, h]

theorem shiftedFromF_id (ps : List (Cursor × List Char)) (f : Nat → Nat)
    (h0 : ∀ z, f z = 0) (hps : ∀ pr ∈ ps, pr.2 = []) :
    shiftedFromF f ps = ps.map Prod.fst := by
  induction ps generalizing f with
  | nil => rfl
  | cons pr ps ih =>
    obtain ⟨cu, s⟩ := pr
    have hs : s = [] := hps (cu, s) (by simp)
    subst hs
    simp only [shiftedFromF, List.map_cons]
    have hhead : ({ cu with x := cu.x + f cu.y + ([] : List Char).length } : Cursor) = cu := by
      cases cu
      simp [h0]
    rw [hhead, ih (bumpF f cu.y ([] : List Char).length) (by intro z; simp [bumpF, h0])
      (fun q hq => hps q (List.mem_cons_of_mem _ hq))]

theorem shiftedFromF_any_selects (ps : List (Cursor × List Char)) (f : Nat → Nat) :
    (shiftedFromF f ps).any Cursor.selects = (ps.map Prod.fst).any Cursor.selects := by
  induction ps generalizing f with
  | nil => rfl
  | cons pr ps ih =>
    obtain ⟨cu, s⟩ := pr
    simp only [shiftedFromF, List.map_cons, List.any_cons, ih]
    rfl

theorem cursorR_y_le (a b : Cursor) (h : cursorR a b) : a.y ≤ b.y := by
  unfold cursorR cursorLe at h
  by_cases hy : a.y = b.y
  · omega
  · rw [if_neg hy] at h
    simpa using h

theorem cursorR_same_y (a b : Cursor) (h : cursorR a b) (hy : a.y = b.y) : a.x ≤ b.x := by
  unfold cursorR cursorLe at h
  rw [if_pos hy] at h
  simpa using h

theorem bumpF_at (f : Nat → Nat) (y n : Nat) : bumpF f y n y = f y + n := by
  simp [bumpF]

theorem addToCursorsAux_false_cons (y n : Nat) (cur : Cursor) (rest : List Cursor) :
    addToCursorsAux false y n (cur :: rest)
      = if cur.y = y then { cur with x := cur.x + n } :: addToCursorsAux false y n rest
        else cur :: rest := by
  simp [addToCursorsAux]

theorem backspaceCursorAux_false_cons (y : Nat) (d : Int) (cur : Cursor) (rest : List Cursor) :
    backspaceCursorAux false y d (cur :: rest)
      = if cur.y = y then
          { cur with x := addSignedClamp cur.x d } :: backspaceCursorAux false y d rest
        else cur :: rest := by
  simp [backspaceCursorAux]

theorem aux_bump (y0 n : Nat) (p2 : List (Cursor × List Char)) :
    ∀ (g : Nat → Nat) (m : Nat),
      List.Pairwise (fun a b => a.1.y ≤ b.1.y) p2 → (∀ pr ∈ p2, y0 ≤ pr.1.y) →
      addToCursorsAux false y0 n (shiftedFromF (bumpF g y0 m) p2)
        = shiftedFromF (bumpF g y0 (m + n)) p2 := by
  induction p2 with
  | nil =>
    intro g m _ _
    rfl
  | cons pr p2 ih =>
    intro g m hpw hge
    obtain ⟨cv, s⟩ := pr
    rw [List.pairwise_cons] at hpw
    simp only [shiftedFromF]
    rw [addToCursorsAux_false_cons]
    by_cases hy : cv.y = y0
    · rw [if_pos hy]
      subst hy
      dsimp only
      rw [bumpF_bumpF]
      have e1 : m + 1 * s.length = m + s.length := by omega
      rw [ih g (m + s.length) hpw.2 (fun q hq => hge q (List.mem_cons_of_mem _ hq))]
      rw [bumpF_bumpF]
      have e2 : m + s.length + n = m + n + s.length := by omega
      rw [e2]
      have e3 : cv.x + bumpF g cv.y m cv.y + s.length + n
          = cv.x + bumpF g cv.y (m + n) cv.y + s.length := by
        simp only [bumpF_at]
        omega
      rw [e3]
    · rw [if_neg hy]
      have hyge : y0 ≤ cv.y := hge (cv, s) (by simp)
      have hb : bumpF g y0 m cv.y = bumpF g y0 (m + n) cv.y := by
        simp [bumpF, hy]
      rw [hb]
      congr 1
      apply shiftedFromF_congr
      intro q hq
      have h2 : cv.y ≤ q.1.y := hpw.1 q hq
      have hqy : ¬ q.1.y = y0 := by omega
      by_cases hqc : q.1.y = cv.y <;> simp [bumpF, hqc, hqy, hy]

theorem aux_drop (y0 : Nat) (p2 : List (Cursor × List Char)) :
    ∀ (g : Nat → Nat) (m : Nat),
      List.Pairwise (fun a b => a.1.y ≤ b.1.y) p2 → (∀ pr ∈ p2, y0 ≤ pr.1.y) →
      backspaceCursorAux false y0 (-1) (shiftedFromF (bumpF g y0 (m + 1)) p2)
        = shiftedFromF (bumpF g y0 m) p2 := by
  induction p2 with
  | nil =>
    intro g m _ _
    rfl
  | cons pr p2 ih =>
    intro g m hpw hge
    obtain ⟨cv, s⟩ := pr
    rw [List.pairwise_cons] at hpw
    simp only [shiftedFromF]
    rw [backspaceCursorAux_false_cons]
    by_cases hy : cv.y = y0
    · rw [if_pos hy]
      subst hy
      dsimp only
      rw [bumpF_bumpF]
      have e1 : m + 1 + s.length = (m + s.length) + 1 := by omega
      rw [e1]
      rw [ih g (m + s.length) hpw.2 (fun q hq => hge q (List.mem_cons_of_mem _ hq))]
      rw [bumpF_bumpF]
      have e2 : addSignedClamp (cv.x + bumpF g cv.y (m + 1) cv.y + s.length) (-1)
          = cv.x + bumpF g cv.y m cv.y + s.length := by
        simp only [addSignedClamp, bumpF_at]
        omega
      rw [e2]
    · rw [if_neg hy]
      have hyge : y0 ≤ cv.y := hge (cv, s) (by simp)
      have hb : bumpF g y0 (m + 1) cv.y = bumpF g y0 m cv.y := by
        simp [bumpF, hy]
      rw [hb]
      congr 1
      apply shiftedFromF_congr
      intro q hq
      have h2 : cv.y ≤ q.1.y := hpw.1 q hq
      have hqy : ¬ q.1.y = y0 := by omega
      by_cases hqc : q.1.y = cv.y <;> simp [bumpF, hqc, hqy, hy]

theorem insertAll_splice (cu : Cursor) (w T' : List Char)
    (p2 : List (Cursor × List Char)) (L : List Line) :
    ∀ (p1 : List (Cursor × List Char)),
      (∀ pr ∈ p1, cursorR pr.1 cu) → cu.x ≤ (L.getD cu.y default).buffer.length →
      updateAt (insertAll (p1 ++ (cu, w) :: p2) L) cu.y
          (lineSplice (cu.x + shiftFor cu.y p1 + w.length) T')
        = insertAll (p1 ++ (cu, w ++ T') :: p2) L := by
  intro p1
  induction p1 with
  | nil =>
    intro _ hx
    simp only [List.nil_append, insertAll_cons, shiftFor]
    rw [updateAt_updateAt]
    have e : cu.x + 0 + w.length = cu.x + w.length := by omega
    rw [e]
    have hfun : (fun a => lineSplice (cu.x + w.length) T' (lineSplice cu.x w a))
        = lineSplice cu.x (w ++ T') := by
      funext a
      exact lineSplice_comp cu.x w T' a
    rw [hfun]
  | cons pr p1 ih =>
    intro h1 hx
    obtain ⟨cv, s⟩ := pr
    have hRv : cursorR cv cu := h1 (cv, s) (by simp)
    simp only [List.cons_append, insertAll_cons, shiftFor]
    by_cases hy : cv.y = cu.y
    · have hxle : cv.x ≤ cu.x := cursorR_same_y cv cu hRv hy
      rw [if_pos hy, hy, updateAt_updateAt]
      have harith : cu.x + (s.length + shiftFor cu.y p1) + w.length
          = cu.x + shiftFor cu.y p1 + w.length + s.length := by omega
      rw [harith]
      have hcg := updateAt_congr (insertAll (p1 ++ (cu, w) :: p2) L) cu.y
        (fun a => lineSplice (cu.x + shiftFor cu.y p1 + w.length + s.length) T'
          (lineSplice cv.x s a))
        (fun a => lineSplice cv.x s
          (lineSplice (cu.x + shiftFor cu.y p1 + w.length) T' a)) default
        (lineSplice_commute cv.x (cu.x + shiftFor cu.y p1 + w.length) s T' _
          (by omega) (le_trans hxle (le_trans hx (insertAll_getD_len _ _ _))))
      rw [hcg]
      have hsplit := (updateAt_updateAt (insertAll (p1 ++ (cu, w) :: p2) L) cu.y
        (lineSplice (cu.x + shiftFor cu.y p1 + w.length) T') (lineSplice cv.x s)).symm
      rw [hsplit]
      rw [ih (fun q hq => h1 q (List.mem_cons_of_mem _ hq)) hx]
    · rw [if_neg hy]
      have harith : cu.x + (0 + shiftFor cu.y p1) + w.length
          = cu.x + shiftFor cu.y p1 + w.length := by omega
      rw [harith]
      rw [updateAt_comm _ _ _ _ _ hy]
      rw [ih (fun q hq => h1 q (List.mem_cons_of_mem _ hq)) hx]

theorem insertAll_unsplice (cu : Cursor) (w : List Char) (ch : Char)
    (p2 : List (Cursor × List Char)) (L : List Line) :
    ∀ (p1 : List (Cursor × List Char)),
      (∀ pr ∈ p1, cursorR pr.1 cu) → cu.x ≤ (L.getD cu.y default).buffer.length →
      updateAt (insertAll (p1 ++ (cu, w ++ [ch]) :: p2) L) cu.y
          (lineCut (cu.x + shiftFor cu.y p1 + w.length))
        = insertAll (p1 ++ (cu, w) :: p2) L := by
  intro p1
  induction p1 with
  | nil =>
    intro _ hx
    simp only [List.nil_append, insertAll_cons, shiftFor]
    rw [updateAt_updateAt]
    have e : cu.x + 0 + w.length = cu.x + w.length := by omega
    rw [e]
    have hcg := updateAt_congr (insertAll p2 L) cu.y
      (fun a => lineCut (cu.x + w.length) (lineSplice cu.x (w ++ [ch]) a))
      (lineSplice cu.x w) default
      (lineCut_splice cu.x w ch _ (le_trans hx (insertAll_getD_len _ _ _)))
    rw [hcg]
  | cons pr p1 ih =>
    intro h1 hx
    obtain ⟨cv, s⟩ := pr
    have hRv : cursorR cv cu := h1 (cv, s) (by simp)
    simp only [List.cons_append, insertAll_cons, shiftFor]
    by_cases hy : cv.y = cu.y
    · have hxle : cv.x ≤ cu.x := cursorR_same_y cv cu hRv hy
      rw [if_pos hy, hy, updateAt_updateAt]
      have harith : cu.x + (s.length + shiftFor cu.y p1) + w.length
          = cu.x + shiftFor cu.y p1 + w.length + s.length := by omega
      rw [harith]
      have hcg := updateAt_congr (insertAll (p1 ++ (cu, w ++ [ch]) :: p2) L) cu.y
        (fun a => lineCut (cu.x + shiftFor cu.y p1 + w.length + s.length)
          (lineSplice cv.x s a))
        (fun a => lineSplice cv.x s
          (lineCut (cu.x + shiftFor cu.y p1 + w.length) a)) default
        (lineCut_commute cv.x (cu.x + shiftFor cu.y p1 + w.length) s _
          (by omega) (le_trans hxle (le_trans hx (insertAll_getD_len _ _ _))))
      rw [hcg]
      have hsplit := (updateAt_updateAt (insertAll (p1 ++ (cu, w ++ [ch]) :: p2) L) cu.y
        (lineCut (cu.x + shiftFor cu.y p1 + w.length)) (lineSplice cv.x s)).symm
      rw [hsplit]
      rw [ih (fun q hq => h1 q (List.mem_cons_of_mem _ hq)) hx]
    · rw [if_neg hy]
      have harith : cu.x + (0 + shiftFor cu.y p1) + w.length
          = cu.x + shiftFor cu.y p1 + w.length := by omega
      rw [harith]
      rw [updateAt_comm _ _ _ _ _ hy]
      rw [ih (fun q hq => h1 q (List.mem_cons_of_mem _ hq)) hx]

theorem byteLen_ascii (s : List Char) (h : ∀ c ∈ s, utf8Len c = 1) :
    byteLen s = s.length := by
  induction s with
  | nil => rfl
  | cons c s ih =>
    unfold byteLen at *
    simp only [List.map_cons, List.sum_cons, List.length_cons]
    rw [h c (by simp), ih (fun d hd => h d (List.mem_cons_of_mem _ hd))]
    omega

theorem splitLf_no_lf (s : List Char) (h : '\n' ∉ s) : splitLf s = [s] := by
  induction s with
  | nil => rfl
  | cons c s ih =>
    unfold splitLf
    rw [if_neg (by intro e; exact h (by rw [e]; exact List.mem_cons_self _ _))]
    rw [ih (fun hm => h (List.mem_cons_of_mem _ hm))]

theorem strip_cr_of_false (p : List Char) (h : (strip_cr p).2 = false) :
    (strip_cr p).1 = p := by
  have hs := strip_cr_spec p
  rw [h] at hs
  simpa [crStr] using hs

theorem strip_cr_of_true (p : List Char) (h : (strip_cr p).2 = true) :
    (strip_cr p).1 ++ ['\r'] = p := by
  have hs := strip_cr_spec p
  rw [h] at hs
  simpa [crStr] using hs

theorem shiftedCursors_split (p1 p2 : List (Cursor × List Char)) (cu : Cursor)
    (w : List Char) :
    shiftedCursors (p1 ++ (cu, w) :: p2)
      = shiftedFromF (fun _ => 0) p1
        ++ ({ cu with x := cu.x + accF (fun _ => 0) p1 cu.y + w.length }
            :: shiftedFromF (bumpF (accF (fun _ => 0) p1) cu.y w.length) p2) := by
  unfold shiftedCursors
  rw [shiftedFromF_append]
  rfl

theorem cursor_at_split (t : Tab) (cu : Cursor) (w : List Char)
    (p1 p2 : List (Cursor × List Char))
    (hc : t.cursors = shiftedCursors (p1 ++ (cu, w) :: p2)) :
    t.cursor p1.length
      = { cu with x := cu.x + accF (fun _ => 0) p1 cu.y + w.length } := by
  unfold Tab.cursor
  rw [hc, shiftedCursors_split, ← shiftedFromF_length (fun (_ : Nat) => 0) p1]
  exact getD_at_length _ _ _ _

theorem add_to_cursors_shifted (t : Tab) (cu : Cursor) (w w' : List Char) (n : Nat)
    (p1 p2 : List (Cursor × List Char))
    (hc : t.cursors = shiftedCursors (p1 ++ (cu, w) :: p2))
    (h2 : List.Pairwise (fun a b => a.1.y ≤ b.1.y) p2)
    (h3 : ∀ pr ∈ p2, cu.y ≤ pr.1.y)
    (hw : w'.length = w.length + n) :
    (t.add_to_cursors p1.length false n).cursors
      = shiftedCursors (p1 ++ (cu, w') :: p2) := by
  simp only [Tab.add_to_cursors]
  rw [cursor_at_split t cu w p1 p2 hc]
  rw [hc, shiftedCursors_split]
  rw [← shiftedFromF_length (fun (_ : Nat) => 0) p1, List.take_left, List.drop_left]
  rw [addToCursorsAux_false_cons]
  rw [if_pos (show ({ cu with x := cu.x + accF (fun _ => 0) p1 cu.y + w.length }
    : Cursor).y = cu.y from rfl)]
  rw [shiftedCursors_split p1 p2 cu w']
  rw [hw]
  rw [aux_bump cu.y n p2 (accF (fun _ => 0) p1) w.length h2 h3]
  dsimp only
  have e : cu.x + accF (fun _ => 0) p1 cu.y + w.length + n
      = cu.x + accF (fun _ => 0) p1 cu.y + (w.length + n) := by omega
  rw [e]

theorem backspace_cursor_shifted (t : Tab) (cu : Cursor) (w w' : List Char)
    (p1 p2 : List (Cursor × List Char))
    (hc : t.cursors = shiftedCursors (p1 ++ (cu, w') :: p2))
    (h2 : List.Pairwise (fun a b => a.1.y ≤ b.1.y) p2)
    (h3 : ∀ pr ∈ p2, cu.y ≤ pr.1.y)
    (hw : w'.length = w.length + 1) :
    (t.backspace_cursor p1.length false (-1)).cursors
      = shiftedCursors (p1 ++ (cu, w) :: p2) := by
  simp only [Tab.backspace_cursor]
  rw [cursor_at_split t cu w' p1 p2 hc]
  rw [hc, shiftedCursors_split]
  rw [← shiftedFromF_length (fun (_ : Nat) => 0) p1, List.take_left, List.drop_left]
  rw [backspaceCursorAux_false_cons]
  rw [if_pos (show ({ cu with x := cu.x + accF (fun _ => 0) p1 cu.y + w'.length }
    : Cursor).y = cu.y from rfl)]
  rw [shiftedCursors_split p1 p2 cu w]
  rw [hw]
  rw [aux_drop cu.y p2 (accF (fun _ => 0) p1) w.length h2 h3]
  dsimp only
  have e : addSignedClamp (cu.x + accF (fun _ => 0) p1 cu.y + (w.length + 1)) (-1)
      = cu.x + accF (fun _ => 0) p1 cu.y + w.length := by
    simp only [addSignedClamp]
    omega
  rw [e]

theorem insert_no_lf_step (t : Tab) (L : List Line) (cu : Cursor) (w T' : List Char)
    (p1 p2 : List (Cursor × List Char))
    (hl : t.lines = insertAll (p1 ++ (cu, w) :: p2) L)
    (hc : t.cursors = shiftedCursors (p1 ++ (cu, w) :: p2))
    (h1 : ∀ pr ∈ p1, cursorR pr.1 cu)
    (hpw : List.Pairwise (fun a b => a.1.y ≤ b.1.y) p2)
    (hge : ∀ pr ∈ p2, cu.y ≤ pr.1.y)
    (hx : cu.x ≤ (L.getD cu.y default).buffer.length)
    (hT : ∀ ch ∈ T', utf8Len ch = 1) :
    (t.insert_text_no_lf p1.length T').lines = insertAll (p1 ++ (cu, w ++ T') :: p2) L
    ∧ (t.insert_text_no_lf p1.length T').cursors
        = shiftedCursors (p1 ++ (cu, w ++ T') :: p2) := by
  have hg : accF (fun _ => 0) p1 cu.y = shiftFor cu.y p1 := by
    rw [accF_eval]
    simp
  constructor
  · simp only [Tab.insert_text_no_lf]
    rw [lines_add_to_cursors]
    dsimp only
    rw [cursor_at_split t cu w p1 p2 hc]
    dsimp only
    rw [hg, hl]
    exact insertAll_splice cu w T' p2 L p1 h1 hx
  · simp only [Tab.insert_text_no_lf]
    rw [byteLen_ascii T' hT]
    exact add_to_cursors_shifted _ cu w (w ++ T') T'.length p1 p2 hc hpw hge (by simp)

theorem insert_cursor_step (t : Tab) (L : List Line) (cu : Cursor) (w T : List Char)
    (p1 p2 : List (Cursor × List Char))
    (hl : t.lines = insertAll (p1 ++ (cu, w) :: p2) L)
    (hc : t.cursors = shiftedCursors (p1 ++ (cu, w) :: p2))
    (h1 : ∀ pr ∈ p1, cursorR pr.1 cu)
    (hpw : List.Pairwise (fun a b => a.1.y ≤ b.1.y) p2)
    (hge : ∀ pr ∈ p2, cu.y ≤ pr.1.y)
    (hx : cu.x ≤ (L.getD cu.y default).buffer.length)
    (hT : ∀ ch ∈ T, utf8Len ch = 1) (hlf : '\n' ∉ T) :
    (t.insert_text_cursor p1.length T).lines = insertAll (p1 ++ (cu, w ++ T) :: p2) L
    ∧ (t.insert_text_cursor p1.length T).cursors
        = shiftedCursors (p1 ++ (cu, w ++ T) :: p2) := by
  simp only [Tab.insert_text_cursor]
  rw [splitLf_no_lf T hlf]
  dsimp only
  rcases h : strip_cr T with ⟨part, cr0⟩
  dsimp only
  cases cr0 with
  | false =>
    have hpart : part = T := by
      have hf := strip_cr_of_false T (by rw [h])
      rw [h] at hf
      exact hf
    subst hpart
    simp only [insertPartsAux]
    rw [if_neg (by decide : ¬ (false = true))]
    exact insert_no_lf_step t L cu w part p1 p2 hl hc h1 hpw hge hx hT
  | true =>
    have hpart : part ++ ['\r'] = T := by
      have hf := strip_cr_of_true T (by rw [h])
      rw [h] at hf
      exact hf
    have hTpart : ∀ ch ∈ part, utf8Len ch = 1 := by
      intro ch hch
      exact hT ch (by rw [← hpart]; exact List.mem_append_left _ hch)
    simp only [insertPartsAux]
    rw [if_pos trivial]
    have s1 := insert_no_lf_step t L cu w part p1 p2 hl hc h1 hpw hge hx hTpart
    have s2 := insert_no_lf_step (t.insert_text_no_lf p1.length part) L cu
      (w ++ part) ['\r'] p1 p2 s1.1 s1.2 h1 hpw hge hx
      (by intro ch hch; simp at hch; subst hch; rfl)
    rw [List.append_assoc, hpart] at s2
    exact s2

theorem backspace_step (t : Tab) (L : List Line) (cu : Cursor) (w : List Char) (ch : Char)
    (p1 p2 : List (Cursor × List Char))
    (hl : t.lines = insertAll (p1 ++ (cu, w ++ [ch]) :: p2) L)
    (hc : t.cursors = shiftedCursors (p1 ++ (cu, w ++ [ch]) :: p2))
    (h1 : ∀ pr ∈ p1, cursorR pr.1 cu)
    (hpw : List.Pairwise (fun a b => a.1.y ≤ b.1.y) p2)
    (hge : ∀ pr ∈ p2, cu.y ≤ pr.1.y)
    (hx : cu.x ≤ (L.getD cu.y default).buffer.length)
    (hts : t.tab_string.length = 1) :
    (t.backspace p1.length 1).lines = insertAll (p1 ++ (cu, w) :: p2) L
    ∧ (t.backspace p1.length 1).cursors = shiftedCursors (p1 ++ (cu, w) :: p2) := by
  have hg : accF (fun _ => 0) p1 cu.y = shiftFor cu.y p1 := by
    rw [accF_eval]
    simp
  have hcur := cursor_at_split t cu (w ++ [ch]) p1 p2 hc
  have hxv : (t.cursor p1.length).x
      = cu.x + accF (fun _ => 0) p1 cu.y + (w ++ [ch]).length := by
    rw [hcur]
  have hm : t.mergeLoop p1.length 1 = (t, 1) := by
    have hnlt : ¬ ((t.cursor p1.length).x < 0 + 1) := by
      rw [hxv]
      simp only [List.length_append, List.length_cons, List.length_nil]
      omega
    unfold Tab.mergeLoop
    rw [if_neg hnlt]
  unfold Tab.backspace
  rw [hm]
  dsimp only
  have hne : ¬ ((1 : Nat) = 0) := by omega
  rw [if_neg hne]
  rw [hcur]
  dsimp only
  rw [hts, ite_self]
  have hlen : (w ++ [ch]).length = w.length + 1 := by simp
  rw [hlen, hg]
  have e1 : cu.x + shiftFor cu.y p1 + (w.length + 1) - 1
      = cu.x + shiftFor cu.y p1 + w.length := by omega
  rw [e1]
  have e2 : cu.x + shiftFor cu.y p1 + (w.length + 1)
      = cu.x + shiftFor cu.y p1 + w.length + 1 := by omega
  rw [e2]
  constructor
  · show ({ t with lines := updateAt t.lines cu.y _ } : Tab).lines = _
    dsimp only
    rw [hl]
    exact insertAll_unsplice cu w ch p2 L p1 h1 hx
  · have hnum : (-((1 : Nat) : Int)) = (-1 : Int) := by norm_num
    rw [hnum]
    exact backspace_cursor_shifted _ cu w (w ++ [ch]) p1 p2 hc hpw hge (by simp)

theorem range'_cons (s n : Nat) : List.range' s (n + 1) = s :: List.range' (s + 1) n := rfl

theorem tab_string_no_lf (t : Tab) (c : Nat) (x : List Char) :
    (t.insert_text_no_lf c x).tab_string = t.tab_string := rfl

theorem tab_string_insertPartsAux (c : Nat) (ps : List (List Char)) :
    ∀ (t : Tab) (cr : Bool), ((insertPartsAux c t cr ps).1).tab_string = t.tab_string := by
  induction ps with
  | nil =>
    intro t cr
    rfl
  | cons p ps ih =>
    intro t cr
    simp only [insertPartsAux]
    rcases h : strip_cr p with ⟨part, cr2⟩
    dsimp only
    rw [ih]
    rfl

theorem tab_string_insert_text_cursor (t : Tab) (c : Nat) (x : List Char) :
    (t.insert_text_cursor c x).tab_string = t.tab_string := by
  unfold Tab.insert_text_cursor
  rcases hsp : splitLf x with _ | ⟨p, ps⟩
  · rfl
  · dsimp only
    rcases h : strip_cr p with ⟨part, cr0⟩
    dsimp only
    rcases hip : insertPartsAux c (t.insert_text_no_lf c part) cr0 ps with ⟨t2, cr⟩
    dsimp only
    have ht2 : t2.tab_string = t.tab_string := by
      have hq := tab_string_insertPartsAux c ps (t.insert_text_no_lf c part) cr0
      rw [hip] at hq
      exact hq
    cases cr
    · rw [if_neg (by decide : ¬ (false = true))]
      exact ht2
    · rw [if_pos rfl]
      exact ht2

theorem tab_string_merge_with_prev_line (t : Tab) (c a b : Nat) :
    (t.merge_with_prev_line c a b).tab_string = t.tab_string := rfl

theorem tab_string_mergeLoop (c : Nat) (n : Nat) :
    ∀ (u : Tab), ((u.mergeLoop c n).1).tab_string = u.tab_string := by
  induction n with
  | zero =>
    intro u
    rfl
  | succ n ih =>
    intro u
    unfold Tab.mergeLoop
    by_cases h : (u.cursor c).x < n + 1
    · rw [if_pos h]
      cases hy : (u.cursor c).y with
      | zero =>
        dsimp only
        rw [ih]
      | succ py =>
        dsimp only
        rw [ih]
        rfl
    · rw [if_neg h]

theorem tab_string_backspace (t : Tab) (c : Nat) (n : Nat) :
    (t.backspace c n).tab_string = t.tab_string := by
  unfold Tab.backspace
  rcases hm : t.mergeLoop c n with ⟨t1, k⟩
  have ht1 : t1.tab_string = t.tab_string := by
    have hq := tab_string_mergeLoop c n t
    rw [hm] at hq
    exact hq
  dsimp only
  by_cases hk : k = 0
  · rw [if_pos hk]
    exact ht1
  · rw [if_neg hk]
    exact ht1

theorem pair_sorted_facts (p1 p2 : List (Cursor × List Char)) (cu : Cursor) (w : List Char)
    (hs : List.Pairwise cursorR ((p1 ++ (cu, w) :: p2).map Prod.fst)) :
    (∀ pr ∈ p1, cursorR pr.1 cu)
    ∧ List.Pairwise (fun a b : Cursor × List Char => a.1.y ≤ b.1.y) p2
    ∧ (∀ pr ∈ p2, cu.y ≤ pr.1.y) := by
  rw [List.map_append, List.map_cons, List.pairwise_append] at hs
  obtain ⟨hA, hB, hAB⟩ := hs
  rw [List.pairwise_cons] at hB
  refine ⟨?_, ?_, ?_⟩
  · intro pr hpr
    exact hAB pr.1 (List.mem_map_of_mem _ hpr) cu (by simp)
  · have hmap := hB.2
    rw [List.pairwise_map] at hmap
    exact hmap.imp (fun hab => cursorR_y_le _ _ hab)
  · intro pr hpr
    exact cursorR_y_le _ _ (hB.1 pr.1 (List.mem_map_of_mem _ hpr))

theorem insert_fold (T : List Char) (L : List Line) (cs : List Cursor)
    (hs : List.Pairwise cursorR cs)
    (hwf : ∀ a ∈ cs, a.x ≤ (L.getD a.y default).buffer.length)
    (hT : ∀ ch ∈ T, utf8Len ch = 1) (hlf : '\n' ∉ T) :
    ∀ (q p1 : List (Cursor × List Char)) (t : Tab),
      (p1 ++ q).map Prod.fst = cs →
      t.lines = insertAll (p1 ++ q) L →
      t.cursors = shiftedCursors (p1 ++ q) →
      ((List.range' p1.length q.length).foldl
          (fun acc c => acc.insert_text_cursor c T) t).lines
        = insertAll (p1 ++ q.map (fun pr => (pr.1, pr.2 ++ T))) L
      ∧ ((List.range' p1.length q.length).foldl
          (fun acc c => acc.insert_text_cursor c T) t).cursors
        = shiftedCursors (p1 ++ q.map (fun pr => (pr.1, pr.2 ++ T))) := by
  intro q
  induction q with
  | nil =>
    intro p1 t hmap hl hc
    exact ⟨hl, hc⟩
  | cons pr q ih =>
    intro p1 t hmap hl hc
    obtain ⟨cu, w⟩ := pr
    simp only [List.length_cons]
    rw [range'_cons]
    simp only [List.foldl_cons]
    have hfacts := pair_sorted_facts p1 q cu w (by rw [hmap]; exact hs)
    have hcu_mem : cu ∈ cs := by
      rw [← hmap]
      exact List.mem_map_of_mem Prod.fst
        (show (cu, w) ∈ p1 ++ (cu, w) :: q by simp)
    have hstep := insert_cursor_step t L cu w T p1 q hl hc hfacts.1 hfacts.2.1
      hfacts.2.2 (hwf cu hcu_mem) hT hlf
    have hmap' : ((p1 ++ [(cu, w ++ T)]) ++ q).map Prod.fst = cs := by
      rw [← hmap]
      simp
    have hl' : (t.insert_text_cursor p1.length T).lines
        = insertAll ((p1 ++ [(cu, w ++ T)]) ++ q) L := by
      rw [hstep.1]
      simp
    have hc' : (t.insert_text_cursor p1.length T).cursors
        = shiftedCursors ((p1 ++ [(cu, w ++ T)]) ++ q) := by
      rw [hstep.2]
      simp
    have hres := ih (p1 ++ [(cu, w ++ T)]) (t.insert_text_cursor p1.length T) hmap' hl' hc'
    have hlen' : (p1 ++ [(cu, w ++ T)]).length = p1.length + 1 := by simp
    rw [hlen'] at hres
    constructor
    · rw [hres.1]
      simp
    · rw [hres.2]
      simp

theorem backspace_fold (L : List Line) (cs : List Cursor)
    (hs : List.Pairwise cursorR cs)
    (hwf : ∀ a ∈ cs, a.x ≤ (L.getD a.y default).buffer.length) :
    ∀ (q p1 : List (Cursor × List Char)) (t : Tab),
      (p1 ++ q).map Prod.fst = cs →
      (∀ pr ∈ q, pr.2 ≠ []) →
      t.lines = insertAll (p1 ++ q) L →
      t.cursors = shiftedCursors (p1 ++ q) →
      t.tab_string.length = 1 →
      ((List.range' p1.length q.length).foldl (fun acc c => acc.backspace c 1) t).lines
        = insertAll (p1 ++ q.map dropLastPair) L
      ∧ ((List.range' p1.length q.length).foldl (fun acc c => acc.backspace c 1) t).cursors
        = shiftedCursors (p1 ++ q.map dropLastPair)
      ∧ ((List.range' p1.length q.length).foldl (fun acc c => acc.backspace c 1) t).tab_string
        = t.tab_string := by
  intro q
  induction q with
  | nil =>
    intro p1 t hmap hne hl hc hts
    exact ⟨hl, hc, rfl⟩
  | cons pr q ih =>
    intro p1 t hmap hne hl hc hts
    obtain ⟨cu, w⟩ := pr
    have hwne : w ≠ [] := hne (cu, w) (by simp)
    have hw : w.dropLast ++ [w.getLast hwne] = w := List.dropLast_append_getLast hwne
    rw [← hw] at hl hc
    simp only [List.length_cons]
    rw [range'_cons]
    simp only [List.foldl_cons]
    have hfacts := pair_sorted_facts p1 q cu w (by rw [hmap]; exact hs)
    have hcu_mem : cu ∈ cs := by
      rw [← hmap]
      exact List.mem_map_of_mem Prod.fst
        (show (cu, w) ∈ p1 ++ (cu, w) :: q by simp)
    have hstep := backspace_step t L cu w.dropLast (w.getLast hwne) p1 q hl hc
      hfacts.1 hfacts.2.1 hfacts.2.2 (hwf cu hcu_mem) hts
    have hmap' : ((p1 ++ [(cu, w.dropLast)]) ++ q).map Prod.fst = cs := by
      rw [← hmap]
      simp
    have hl' : (t.backspace p1.length 1).lines
        = insertAll ((p1 ++ [(cu, w.dropLast)]) ++ q) L := by
      rw [hstep.1]
      simp
    have hc' : (t.backspace p1.length 1).cursors
        = shiftedCursors ((p1 ++ [(cu, w.dropLast)]) ++ q) := by
      rw [hstep.2]
      simp
    have hts' : (t.backspace p1.length 1).tab_string.length = 1 := by
      rw [tab_string_backspace]
      exact hts
    have hres := ih (p1 ++ [(cu, w.dropLast)]) (t.backspace p1.length 1) hmap'
      (fun q2 hq2 => hne q2 (List.mem_cons_of_mem _ hq2)) hl' hc' hts'
    have hlen' : (p1 ++ [(cu, w.dropLast)]).length = p1.length + 1 := by simp
    rw [hlen'] at hres
    refine ⟨?_, ?_, ?_⟩
    · rw [hres.1]
      simp [dropLastPair]
    · rw [hres.2.1]
      simp [dropLastPair]
    · rw [hres.2.2, tab_string_backspace]

theorem tab_string_eraseSelLoop (c : Nat) :
    ∀ (n : Nat) (u : Tab), ((u.eraseSelLoop c n)).tab_string = u.tab_string := by
  intro n
  induction n with
  | zero =>
    intro u
    rfl
  | succ n ih =>
    intro u
    unfold Tab.eraseSelLoop
    by_cases h : (u.cursor c).sel_y = 0
    · rw [if_pos h]
    · rw [if_neg h]
      dsimp only
      rw [ih]
      exact tab_string_backspace _ c _

theorem tab_string_eraseSelCursor (u : Tab) (c : Nat) :
    (u.eraseSelCursor c).tab_string = u.tab_string := by
  unfold Tab.eraseSelCursor
  dsimp only
  rw [tab_string_backspace]
  exact tab_string_eraseSelLoop c _ _

theorem tab_string_erase_selection (u : Tab) :
    ((u.erase_selection).1).tab_string = u.tab_string := by
  unfold Tab.erase_selection
  cases hv : u.has_selections with
  | false => rfl
  | true =>
    rw [if_neg (by decide : ¬ ((!true) = true))]
    dsimp only
    exact foldl_preserve (fun v => v.tab_string = u.tab_string) Tab.eraseSelCursor
      (fun v x hvx => by
        show (v.eraseSelCursor x).tab_string = u.tab_string
        rw [tab_string_eraseSelCursor]
        exact hvx) _ _
      (tab_string_log u .deletion)

theorem tab_string_insert_text (t : Tab) (T : List Char) :
    (t.insert_text T).tab_string = t.tab_string := by
  simp only [Tab.insert_text]
  exact foldl_preserve (fun v => v.tab_string = t.tab_string)
    (fun acc c => acc.insert_text_cursor c T)
    (fun v x hvx => by
      show (v.insert_text_cursor x T).tab_string = t.tab_string
      rw [tab_string_insert_text_cursor]
      exact hvx)
    _ _ (by
      show (t.prepare_insertion.erase_selection).1.tab_string = t.tab_string
      rw [tab_string_erase_selection]
      show (t.log .insertion).tab_string = t.tab_string
      exact tab_string_log t .insertion)

theorem map_fst_dropLastPair (ps : List (Cursor × List Char)) :
    (ps.map dropLastPair).map Prod.fst = ps.map Prod.fst := by
  rw [List.map_map]
  rfl

theorem insert_text_shape (t : Tab) (T : List Char)
    (hs : List.Pairwise cursorR t.cursors)
    (hsel : ∀ a ∈ t.cursors, a.selects = false)
    (hwf : ∀ a ∈ t.cursors, a.x ≤ (t.lines.getD a.y default).buffer.length)
    (hT : ∀ ch ∈ T, utf8Len ch = 1) (hlf : '\n' ∉ T) :
    (t.insert_text T).lines = insertAll (t.cursors.map (fun cu => (cu, T))) t.lines
    ∧ (t.insert_text T).cursors = shiftedCursors (t.cursors.map (fun cu => (cu, T))) := by
  have hselt : t.has_selections = false := by
    unfold Tab.has_selections
    rw [List.any_eq_false]
    intro a ha
    simp [hsel a ha]
  have hsel1 : (t.prepare_insertion).has_selections = false := by
    unfold Tab.has_selections
    rw [show (t.prepare_insertion).cursors = t.cursors from cursors_log t .insertion]
    unfold Tab.has_selections at hselt
    exact hselt
  simp only [Tab.insert_text]
  rw [erase_selection_noop _ hsel1]
  dsimp only
  have hnil0 : ∀ pr ∈ t.cursors.map (fun cu => (cu, ([] : List Char))), pr.2 = [] := by
    intro pr hpr
    rw [List.mem_map] at hpr
    obtain ⟨a, ha, he⟩ := hpr
    rw [← he]
  have hmap0 : (t.cursors.map (fun cu => (cu, ([] : List Char)))).map Prod.fst
      = t.cursors := by
    rw [List.map_map]
    exact List.map_id t.cursors
  have hl0 : (t.prepare_insertion).lines
      = insertAll (t.cursors.map (fun cu => (cu, ([] : List Char)))) t.lines := by
    show (t.log .insertion).lines = _
    rw [lines_log, insertAll_empty _ _ hnil0]
  have hc0 : (t.prepare_insertion).cursors
      = shiftedCursors (t.cursors.map (fun cu => (cu, ([] : List Char)))) := by
    show (t.log .insertion).cursors = _
    rw [cursors_log]
    unfold shiftedCursors
    rw [shiftedFromF_id _ _ (fun z => rfl) hnil0, hmap0]
  have hlen0 : (t.prepare_insertion).cursors.length
      = (t.cursors.map (fun cu => (cu, ([] : List Char)))).length := by
    show (t.log .insertion).cursors.length = _
    rw [cursors_log]
    simp
  rw [hlen0, List.range_eq_range']
  have hfold := insert_fold T t.lines t.cursors hs hwf hT hlf
    (t.cursors.map (fun cu => (cu, ([] : List Char)))) [] (t.prepare_insertion)
    (by simpa using hmap0) (by simpa using hl0) (by simpa using hc0)
  simp only [List.length_nil, List.nil_append] at hfold
  have hmapT : (t.cursors.map (fun cu => (cu, ([] : List Char)))).map
      (fun pr => (pr.1, pr.2 ++ T)) = t.cursors.map (fun cu => (cu, T)) := by
    rw [List.map_map]
    simp
  rw [hmapT] at hfold
  exact hfold

theorem backspace_once_round (t : Tab) (L : List Line) (cs : List Cursor)
    (ps : List (Cursor × List Char))
    (hmap : ps.map Prod.fst = cs)
    (hs : List.Pairwise cursorR cs)
    (hsel : ∀ a ∈ cs, a.selects = false)
    (hwf : ∀ a ∈ cs, a.x ≤ (L.getD a.y default).buffer.length)
    (hne : ∀ pr ∈ ps, pr.2 ≠ [])
    (hl : t.lines = insertAll ps L)
    (hc : t.cursors = shiftedCursors ps)
    (hts : t.tab_string.length = 1) :
    (t.backspace_once false).lines = insertAll (ps.map dropLastPair) L
    ∧ (t.backspace_once false).cursors = shiftedCursors (ps.map dropLastPair)
    ∧ (t.backspace_once false).tab_string = t.tab_string := by
  have hselt : t.has_selections = false := by
    unfold Tab.has_selections
    rw [hc]
    unfold shiftedCursors
    rw [shiftedFromF_any_selects, hmap, List.any_eq_false]
    intro a ha
    simp [hsel a ha]
  have hred : t.backspace_once false
      = { (List.range (t.prepare_deletion).cursors.length).foldl
            (fun acc c => acc.backspace c 1) t.prepare_deletion with modified := true } := by
    simp only [Tab.backspace_once]
    rw [erase_selection_noop t hselt]
    dsimp only
    rw [if_neg (by decide : ¬ (false = true))]
    rw [if_neg (by decide : ¬ (false = true))]
  rw [hred]
  have hlen : (t.prepare_deletion).cursors.length = ps.length := by
    show (t.log .deletion).cursors.length = _
    rw [cursors_log, hc]
    unfold shiftedCursors
    rw [shiftedFromF_length]
  rw [hlen, List.range_eq_range']
  have hfold := backspace_fold L cs hs hwf ps [] (t.prepare_deletion)
    (by simpa using hmap) hne
    (by show (t.log .deletion).lines = _; rw [lines_log]; simpa using hl)
    (by show (t.log .deletion).cursors = _; rw [cursors_log]; simpa using hc)
    (by show (t.log .deletion).tab_string.length = 1; rw [tab_string_log]; exact hts)
  simp only [List.length_nil, List.nil_append] at hfold
  refine ⟨hfold.1, hfold.2.1, ?_⟩
  show ((List.range' 0 ps.length).foldl (fun acc c => acc.backspace c 1)
    (t.prepare_deletion)).tab_string = t.tab_string
  rw [hfold.2.2]
  show (t.log .deletion).tab_string = t.tab_string
  exact tab_string_log t .deletion

theorem backspace_rounds (L : List Line) (cs : List Cursor)
    (hs : List.Pairwise cursorR cs)
    (hsel : ∀ a ∈ cs, a.selects = false)
    (hwf : ∀ a ∈ cs, a.x ≤ (L.getD a.y default).buffer.length) :
    ∀ (k : Nat) (ps : List (Cursor × List Char)) (t : Tab),
      ps.map Prod.fst = cs →
      (∀ pr ∈ ps, pr.2.length = k) →
      t.lines = insertAll ps L →
      t.cursors = shiftedCursors ps →
      t.tab_string.length = 1 →
      (applyN (fun u => u.backspace_once false) k t).lines = L
      ∧ (applyN (fun u => u.backspace_once false) k t).cursors = cs := by
  intro k
  induction k with
  | zero =>
    intro ps t hmap hlen hl hc hts
    have hnil : ∀ pr ∈ ps, pr.2 = [] :=
      fun pr hpr => List.eq_nil_of_length_eq_zero (hlen pr hpr)
    constructor
    · show t.lines = L
      rw [hl, insertAll_empty ps L hnil]
    · show t.cursors = cs
      rw [hc]
      unfold shiftedCursors
      rw [shiftedFromF_id ps _ (fun z => rfl) hnil, hmap]
  | succ k ih =>
    intro ps t hmap hlen hl hc hts
    have hne : ∀ pr ∈ ps, pr.2 ≠ [] := by
      intro pr hpr e
      have hq := hlen pr hpr
      rw [e] at hq
      simp at hq
    have hround := backspace_once_round t L cs ps hmap hs hsel hwf hne hl hc hts
    show (applyN (fun u => u.backspace_once false) k (t.backspace_once false)).lines = L
      ∧ (applyN (fun u => u.backspace_once false) k (t.backspace_once false)).cursors = cs
    exact ih (ps.map dropLastPair) (t.backspace_once false)
      (by rw [map_fst_dropLastPair]; exact hmap)
      (by
        intro pr hpr
        rw [List.mem_map] at hpr
        obtain ⟨q, hq, he⟩ := hpr
        rw [← he]
        have hq2 := hlen q hq
        simp [dropLastPair, List.length_dropLast, hq2])
      hround.1 hround.2.1 (by rw [hround.2.2]; exact hts)

/-- C6, as amended.  Insertion/deletion inverse: for a document state
whose cursor set is sorted by `(y, x)` (the invariant the editor
maintains), carries no active selection, and lies within the line
store (each cursor's column is at most its line's character length),
and whose configured indent string has exactly one character (so that
the soft-tab widening of a simple backspace degenerates to a single
character, see the counterexample), `insert_text(T)` followed by
`backspace_once(false)` repeated `len_chars(T)` times restores both
the line contents and every cursor record exactly, for every `T` that
contains no line break and no multi-byte character (multi-byte
characters break the cursor arithmetic, claim C1). -/
theorem insert_backspace_inverse (t : Tab) (T : List Char)
    (hs : List.Pairwise cursorR t.cursors)
    (hsel : ∀ a ∈ t.cursors, a.selects = false)
    (hwf : ∀ a ∈ t.cursors, a.x ≤ (t.line a.y).len_chars)
    (hT : ∀ ch ∈ T, utf8Len ch = 1)
    (hlf : '\n' ∉ T)
    (hts : t.tab_string.length = 1) :
    (applyN (fun u => u.backspace_once false) T.length (t.insert_text T)).lines = t.lines
    ∧ (applyN (fun u => u.backspace_once false) T.length (t.insert_text T)).cursors
        = t.cursors := by
  have hwf' : ∀ a ∈ t.cursors, a.x ≤ (t.lines.getD a.y default).buffer.length := hwf
  have hins := insert_text_shape t T hs hsel hwf' hT hlf
  exact backspace_rounds t.lines t.cursors hs hsel hwf' T.length
    (t.cursors.map (fun cu => (cu, T))) (t.insert_text T)
    (by rw [List.map_map]; exact List.map_id t.cursors)
    (by
      intro pr hpr
      rw [List.mem_map] at hpr
      obtain ⟨a, ha, he⟩ := hpr
      rw [← he])
    hins.1 hins.2
    (by rw [tab_string_insert_text]; exact hts)

/-- C6, witness: lines `"abc"` and `"d"` with sorted selection-free
in-range cursors at `(0,1)`, `(0,2)` and `(1,1)`, a one-character
indent string, and the two-character ASCII text `"ab"`: inserting and
then backspacing twice restores the document and the cursors. -/
theorem insert_backspace_inverse_witness :
    (List.Pairwise cursorR inverseTab.cursors
      ∧ (∀ a ∈ inverseTab.cursors, a.selects = false)
      ∧ (∀ a ∈ inverseTab.cursors, a.x ≤ (inverseTab.line a.y).len_chars)
      ∧ inverseTab.tab_string.length = 1)
    ∧ ((applyN (fun u => u.backspace_once false) (("ab".toList).length)
          (inverseTab.insert_text ("ab".toList))).lines = inverseTab.lines
      ∧ (applyN (fun u => u.backspace_once false) (("ab".toList).length)
          (inverseTab.insert_text ("ab".toList))).cursors = inverseTab.cursors) :=
  ⟨⟨by decide, by decide, by decide, by decide⟩,
    insert_backspace_inverse inverseTab ("ab".toList) (by decide) (by decide)
      (by decide) (by decide) (by decide) (by decide)⟩

theorem drop_eq_getD_cons (l : List α) (c : Nat) (d : α) (hc : c < l.length) :
    l.drop c = l.getD c d :: l.drop (c + 1) := by
  induction l generalizing c with
  | nil => simp at hc
  | cons a l ih =>
    cases c with
    | zero => simp [List.getD]
    | succ c =>
      have hc2 : c < l.length := by simpa using hc
      simpa [List.getD] using ih c hc2

theorem getD_take_aux (l : List α) (c : Nat) (hc : c < l.length) (b : α) (m : List α)
    (d : α) : (l.take c ++ b :: m).getD c d = b := by
  have hlen : (l.take c).length = c := by
    rw [List.length_take]
    omega
  have hq := getD_at_length (l.take c) b m d
  rw [hlen] at hq
  exact hq

theorem backspaceCursorAux_true_cons (y : Nat) (d : Int) (cur : Cursor)
    (rest : List Cursor) :
    backspaceCursorAux true y d (cur :: rest)
      = (if cur.y = y then { cur with x := addSignedClamp cur.x d, y := cur.y - 1 }
          else { cur with y := cur.y - 1 }) :: backspaceCursorAux true y d rest := by
  by_cases h : cur.y = y
  · simp [backspaceCursorAux, h]
  · simp [backspaceCursorAux, h]

/-- C9, as amended.  Per-cursor behavior of `backspace_once(false)`
over arbitrary cursor sets: (0) with no cursor holding an active
selection, `backspace_once(false)` logs a deletion and performs one
single-character backspace per cursor index, in cursor order; and each
such `backspace c 1`, applied to the state reached when index `c`'s
turn comes, behaves as the claim says amended with the document-start
exception: (1) a cursor at line 0, column 0 deletes nothing at all;
(2) a cursor at column 0 of a later line merges its line into the
previous one, landing at the previous line's old character length;
(3) a mid-line cursor deletes the whole configured indent string —
`len_chars(indent)` characters — when the text of its line up to the
deletion point ends with it, and exactly one character otherwise, both
expressed by the same `take (x - n) ++ drop x` cut, the cursor moving
left by the same `n`. -/
theorem backspace_once_character_behavior :
    (∀ (v : Tab), v.has_selections = false →
      v.backspace_once false
        = { (List.range (v.prepare_deletion).cursors.length).foldl
              (fun acc k => acc.backspace k 1) v.prepare_deletion with
            modified := true })
    ∧ (∀ (u : Tab) (c : Nat) (cu : Cursor),
      u.cursor c = cu → cu.x = 0 → cu.y = 0 → u.backspace c 1 = u)
    ∧ (∀ (u : Tab) (c : Nat) (cu : Cursor) (ls rest : List Line) (P C : Line),
      c < u.cursors.length → u.cursor c = cu →
      u.lines = ls ++ P :: C :: rest → cu.x = 0 → cu.y = ls.length + 1 →
      ((u.backspace c 1).lines = ls ++ { P with buffer := P.buffer ++ C.buffer } :: rest
        ∧ (u.backspace c 1).cursor c = { cu with x := P.len_chars, y := ls.length }))
    ∧ (∀ (u : Tab) (c : Nat) (cu : Cursor) (i : Nat),
      c < u.cursors.length → u.cursor c = cu → cu.x = i + 1 →
      ((u.backspace c 1).lines
          = updateAt u.lines cu.y
              (cutAt (if u.tab_string.isSuffixOf ((u.line cu.y).buffer.take cu.x)
                then u.tab_string.length else 1) cu.x)
        ∧ (u.backspace c 1).cursor c
          = { cu with x := cu.x
              - (if u.tab_string.isSuffixOf ((u.line cu.y).buffer.take cu.x)
                then u.tab_string.length else 1) })) := by
  refine ⟨?_, ?_, ?_, ?_⟩
  · intro v hsel
    simp only [Tab.backspace_once]
    rw [erase_selection_noop v hsel]
    dsimp only
    rw [if_neg (by decide : ¬ (false = true))]
    rw [if_neg (by decide : ¬ (false = true))]
  · intro u c cu hcu hx hy
    have hml : u.mergeLoop c 1 = (u, 0) := by
      have hlt : cu.x < 0 + 1 := by omega
      unfold Tab.mergeLoop
      rw [hcu, if_pos hlt, hy]
      rfl
    unfold Tab.backspace
    rw [hml]
    dsimp only
    rw [if_pos rfl]
  · intro u c cu ls rest P C hclen hcu hl hx hy
    have hgd : u.cursors.getD c default = cu := hcu
    have hline : u.line (ls.length + 1) = C := by
      unfold Tab.line
      rw [hl]
      have hq : ls.length + 1 = (ls ++ [P]).length := by simp
      rw [hq, show ls ++ P :: C :: rest = (ls ++ [P]) ++ C :: rest by simp,
        getD_at_length]
    have herase : u.lines.eraseIdx (ls.length + 1) = ls ++ P :: rest := by
      rw [hl, eraseIdx_append_succ]
    have hml : u.mergeLoop c 1
        = (u.merge_with_prev_line c (ls.length + 1) ls.length, 0) := by
      have hlt : cu.x < 0 + 1 := by omega
      unfold Tab.mergeLoop
      rw [hcu, if_pos hlt, hy]
      rfl
    unfold Tab.backspace
    rw [hml]
    dsimp only
    rw [if_pos rfl]
    constructor
    · unfold Tab.merge_with_prev_line Tab.backspace_cursor
      dsimp only
      rw [hline, herase, updateAt_append_cons]
    · unfold Tab.merge_with_prev_line Tab.backspace_cursor Tab.cursor
      dsimp only
      rw [herase, getD_at_length]
      rw [drop_eq_getD_cons u.cursors c default hclen, hgd]
      rw [backspaceCursorAux_true_cons, if_pos rfl]
      rw [getD_take_aux u.cursors c hclen]
      have e1 : addSignedClamp cu.x (Line.len_chars P : Int) = P.len_chars := by
        rw [hx]
        unfold addSignedClamp Line.len_chars
        omega
      have e2 : cu.y - 1 = ls.length := by omega
      rw [e1, e2]
  · intro u c cu i hclen hcu hx
    have hgd : u.cursors.getD c default = cu := hcu
    have hml : u.mergeLoop c 1 = (u, 1) := by
      have hnlt : ¬ (cu.x < 0 + 1) := by omega
      unfold Tab.mergeLoop
      rw [hcu, if_neg hnlt]
    unfold Tab.backspace
    rw [hml]
    dsimp only
    rw [if_neg (by omega : ¬ ((1 : Nat) = 0)), hcu]
    have hsimple : (decide (1 = 1)
          && u.tab_string.isSuffixOf ((u.line cu.y).buffer.take cu.x))
        = u.tab_string.isSuffixOf ((u.line cu.y).buffer.take cu.x) := by
      simp
    rw [hsimple]
    constructor
    · rfl
    · unfold Tab.backspace_cursor Tab.cursor
      dsimp only
      rw [drop_eq_getD_cons u.cursors c default hclen, hgd]
      rw [backspaceCursorAux_false_cons, if_pos rfl]
      rw [getD_take_aux u.cursors c hclen]
      rw [addSignedClamp_neg]

/-- C9, witness: on the two-line, two-cursor document `multiTab`
(cursors at `(0,1)` and `(1,0)`, indent `"  "`): `backspace_once` is
the per-index fold; `backspace 0 1` cuts one character before the
first cursor (the text before it, `"a"`, does not end with the
indent); `backspace 1 1` merges line 1 into line 0, the second cursor
landing at the old end of `"ab"`; and on `originTab` a cursor at the
document start deletes nothing. -/
theorem backspace_once_character_behavior_witness :
    (multiTab.has_selections = false
      ∧ multiTab.cursor 0 = ⟨1, 0, 0, 0, 0⟩ ∧ 0 < multiTab.cursors.length
      ∧ multiTab.cursor 1 = ⟨0, 1, 0, 0, 1⟩ ∧ 1 < multiTab.cursors.length
      ∧ originTab.cursor 0 = ⟨0, 0, 0, 0, 0⟩)
    ∧ multiTab.backspace_once false
        = { (List.range (multiTab.prepare_deletion).cursors.length).foldl
              (fun acc k => acc.backspace k 1) multiTab.prepare_deletion with
            modified := true }
    ∧ originTab.backspace 0 1 = originTab
    ∧ ((multiTab.backspace 0 1).lines = [⟨("b".toList), false⟩, ⟨("cd".toList), false⟩]
      ∧ (multiTab.backspace 0 1).cursor 0 = ⟨0, 0, 0, 0, 0⟩)
    ∧ ((multiTab.backspace 1 1).lines = [⟨("abcd".toList), false⟩]
      ∧ (multiTab.backspace 1 1).cursor 1 = ⟨2, 0, 0, 0, 1⟩) := by
  refine ⟨⟨by decide, by decide, by decide, by decide, by decide, by decide⟩,
    ?_, ?_, ?_, ?_⟩
  · exact backspace_once_character_behavior.1 multiTab (by decide)
  · exact backspace_once_character_behavior.2.1 originTab 0 ⟨0, 0, 0, 0, 0⟩
      (by decide) rfl rfl
  · have h := backspace_once_character_behavior.2.2.2 multiTab 0 ⟨1, 0, 0, 0, 0⟩ 0
      (by decide) (by decide) rfl
    exact ⟨by rw [h.1]; decide, by rw [h.2]; decide⟩
  · have h := backspace_once_character_behavior.2.2.1 multiTab 1 ⟨0, 1, 0, 0, 1⟩
      [] [] ⟨("ab".toList), false⟩ ⟨("cd".toList), false⟩
      (by decide) (by decide) (by decide) rfl (by decide)
    exact ⟨by rw [h.1]; decide, by rw [h.2]; decide⟩

end Hop
